/-
Verification of the pruning scheduler / mask-management subsystem and the PGD
attack of the `sparsity` repository (`src/utils/prune.py`, `src/attacks/pgd.py`).

Modelling conventions:
* Python floats are modelled exactly as rationals (`ℚ`); the magnitude-pruning
  logic consists of order comparisons, sorting and exact arithmetic, which ℚ
  reproduces faithfully.  Only `compute_sparsity` (which calls `math.sin`) is
  modelled over `ℝ`.
* A weight tensor of shape `(out, *rest)` is modelled, after the
  `w.view(w_shape[0], -1)` reshape performed by the code itself, as a
  rectangular `List (List ℚ)` of `out` rows of length `k` (row-major, exactly
  the layout `torch.flatten` uses).
* `torch.sort` (ascending) is modelled by `List.insertionSort (· ≤ ·)`; any
  correct ascending sort produces the same list of values.
* Python exceptions (`IndexError` from out-of-range tensor indexing,
  `NotImplementedError` for an unsupported prune type) are modelled with
  `Except`/`Option`.  In-place mask mutation is modelled by state passing: a
  function returns the updated model, and an error case carries the partially
  updated model (Python mutates layer masks in place, so layers processed
  before an exception keep their new masks).
-/
import Mathlib

-- `Rat.mul` and friends are `@[irreducible]` in Batteries, which blocks kernel
-- evaluation of concrete rational arithmetic in `decide`; restore reducibility
-- locally so closed-form witnesses can be checked by evaluation.
set_option allowUnsafeReducibility true
attribute [local semireducible] Rat.mul Rat.add Rat.sub Rat.div Rat.inv Rat.neg

namespace Sparsity

/-- Decidable equality of `Except` results, for evaluating concrete runs. -/
instance {ε α : Type} [DecidableEq ε] [DecidableEq α] : DecidableEq (Except ε α)
  | .ok a, .ok b =>
    if h : a = b then .isTrue (by rw [h]) else .isFalse (by simp [h])
  | .ok _, .error _ => .isFalse (by simp)
  | .error _, .ok _ => .isFalse (by simp)
  | .error e, .error e' =>
    if h : e = e' then .isTrue (by rw [h]) else .isFalse (by simp [h])

/-! ## Basic helpers -/

/-- Python `int(q)`: truncation toward zero.  `Int.tdiv` is T-division, which
truncates toward zero like Python's `int()` applied to a float. -/
def pyInt (q : ℚ) : ℤ :=
  q.num.tdiv q.den

/-- The rank index `int(perc * n)` used throughout `prune.py` to index a sorted
array of `n` values.  All fractions used by the scheduler are nonnegative, so
the truncation lands in `ℕ`. -/
def ratIdx (perc : ℚ) (n : ℕ) : ℕ :=
  (pyInt (perc * n)).toNat

/-- `torch.sort(..., ascending)` on a vector of rationals. -/
def sortL (l : List ℚ) : List ℚ :=
  l.insertionSort (· ≤ ·)

/-- `torch.clamp(x, min = lo, max = hi)`, which computes
`min(max(x, lo), hi)`. -/
def clampQ (lo hi x : ℚ) : ℚ :=
  min (max x lo) hi

/-- `torch.Tensor.sign`: `1` on positives, `-1` on negatives, `0` at `0`. -/
def torchSign (x : ℚ) : ℚ :=
  if 0 < x then 1 else if x < 0 then -1 else 0

/-- Python `round(q, 2)`: rounding to the nearest multiple of `1/100` with
ties broken to the even multiple (banker's rounding).  The Python call rounds
a float; here the value itself is exact, so the rounding is exact decimal
rounding. -/
def round2 (q : ℚ) : ℚ :=
  let y := q * 100
  let f := ⌊y⌋
  let r := y - f
  ((if r < 1/2 then f else if 1/2 < r then f + 1
    else if f % 2 = 0 then f else f + 1 : ℤ) : ℚ) / 100

/-! ## The magnitude pruning function `prune` -/

/-- The two exceptions the pruning code can raise: an `IndexError` when the
rank index `int(perc * n)` falls outside the sorted array, and the
`NotImplementedError('Pruning type not implemented.')` raised for an
unsupported `prune_type`. -/
inductive PruneError where
  | indexOutOfRange
  | unsupportedType
  deriving DecidableEq

/-- The `prune_type == 'weight'` branch of `prune(w, perc, prune_type)`.

Source trace, for `w` of shape `(out, k)` after `w.view(w_shape[0], -1)`:
`w = w.transpose(0, 1)` has shape `(k, out)` with entry `(i, j) = w[j][i]`;
`norm = torch.abs(w)`;
`idx = int(perc * w.shape[0])` where `w.shape[0] = k` (the transposed leading
dimension, i.e. the number of elements per output feature — not `out`);
`threshold = (torch.sort(norm, dim=0)[0])[idx]` sorts along dim 0, i.e. sorts
each column `{|w[j][i]| : i}` of the transposed tensor — which is exactly row
`j` of the original `w` — and takes the rank-`idx` value of each, an
`IndexError` when `idx ≥ k`;
`mask = (norm < threshold)` compares entry `(i, j)` with `threshold[j]`;
`mask = (1. - mask.float()).transpose(0, 1).view(w_shape)` flips it to a keep
mask and transposes back.
The two transposes cancel in the final layout, so entry `(j, i)` of the result
is `0` iff `|w[j][i]|` is strictly below the rank-`idx` magnitude of row `j`. -/
def pruneRowW (idx : ℕ) (row : List ℚ) : Option (List ℚ) :=
  match (sortL (row.map (fun x => |x|)))[idx]? with
  | none => none
  | some threshold =>
      some ((row.map (fun x => |x|)).map (fun x => if x < threshold then (0 : ℚ) else 1))

/-- The full `weight` branch: the shared rank index `idx = int(perc * k)` is
computed once from the trailing size `k`, and each original row is thresholded
independently by `pruneRowW`. -/
def pruneWeight (w : List (List ℚ)) (perc : ℚ) : Option (List (List ℚ)) :=
  w.mapM (pruneRowW (ratIdx perc ((w.head?.map List.length).getD 0)))

/-- The `prune_type == 'unit'` branch of `prune(w, perc, prune_type)`.

Source trace, for `w` of shape `(out, k)` after the same reshape/transpose:
`norm = torch.norm(w, dim=0)` takes the L2 norm of each column of the
transposed tensor, i.e. of each original row (one norm per output feature);
`idx = int(perc * int(w.shape[1]))` where `w.shape[1] = out` after the
transpose; `sorted_norms = torch.sort(norm)`, `threshold = sorted_norms[0][idx]`
(an `IndexError` when `idx ≥ out`); `mask = (norm < threshold)[None, :]`
repeated over the leading dimension zeroes entire units; the final transpose
and reshape make the mask constant along each original row.

Comparisons and sorting of L2 norms agree with comparisons and sorting of
squared norms (`Real.sqrt` is strictly monotone on nonnegative arguments), so
the squared norm `Σ x²` is used here to stay inside `ℚ`. -/
def sqNorm (row : List ℚ) : ℚ :=
  (row.map (fun x => x^2)).sum

/-- The full `unit` branch: one threshold at rank `idx = int(perc * out)` over
the per-unit (per-row) squared norms; pruned units have their whole row
zeroed. -/
def pruneUnit (w : List (List ℚ)) (perc : ℚ) : Option (List (List ℚ)) :=
  match (sortL (w.map sqNorm))[ratIdx perc w.length]? with
  | none => none
  | some threshold =>
      some (w.map (fun row =>
        row.map (fun _ => if sqNorm row < threshold then (0 : ℚ) else 1)))

/-- `prune(w, perc, prune_type)`: dispatch on the granularity string; any
other string raises `NotImplementedError` before any mask is computed. -/
def prune (w : List (List ℚ)) (perc : ℚ) (prune_type : String) :
    Except PruneError (List (List ℚ)) :=
  if prune_type = "weight" then
    match pruneWeight w perc with
    | some mask => .ok mask
    | none => .error .indexOutOfRange
  else if prune_type = "unit" then
    match pruneUnit w perc with
    | some mask => .ok mask
    | none => .error .indexOutOfRange
  else
    .error .unsupportedType

/-! ## The model: mask-bearing layers -/

/-- A mask-bearing layer: a module with a `weight` tensor and a `mask` tensor
of the same shape (shape `(out, k)` as a list of rows).  Only mask-bearing
layers participate in pruning (`hasattr(module, 'mask')`), so the model is
the ordered list of exactly these layers. -/
structure Layer where
  weight : List (List ℚ)
  mask : List (List ℚ)
  deriving DecidableEq

/-- A model, as the ordered collection of its mask-bearing layers. -/
abbrev Model := List Layer

/-- Number of ones in a layer's mask (kept weights). -/
def maskOnes (L : Layer) : ℕ :=
  L.mask.flatten.countP (fun x => x = 1)

/-- Total kept-weight count over all layers. -/
def totalOnes (m : Model) : ℕ :=
  (m.map maskOnes).sum

/-- The concatenated score vector
`torch.cat([torch.flatten(w) for w in weights])` of `global_prune`. -/
def scoresOf (m : Model) : List ℚ :=
  ((m.map Layer.weight).map List.flatten).flatten

/-- Number of scalar weights across all mask-bearing layers. -/
def totalCount (m : Model) : ℕ :=
  (scoresOf m).length

/-- `np.sum(mask) / mask.size`, the fraction of kept weights. -/
def maskDensity (L : Layer) : ℚ :=
  L.mask.flatten.sum / (L.mask.flatten.length : ℚ)

/-- `round(1. - np.sum(mask) / mask.size, 2)`: the observed sparsity of a
layer's mask, rounded to two decimals. -/
def mask_sparsity (L : Layer) : ℚ :=
  round2 (1 - maskDensity L)

/-! ## Pruner configuration and scheduler -/

/-- The configuration fields of `args` consumed by the `Pruner`. -/
structure Args where
  initial_sparsity : ℚ
  final_sparsity : ℚ
  start_step : ℚ
  end_step : ℚ
  steps : ℕ
  ramp_type : String
  ramp_cycle_step : ℕ
  prune_freq : ℕ
  global_prune : Bool
  prune_type : String
  carry_mask : Bool
  ramping : Bool
  deriving DecidableEq

/-- `self.start_step = int(args.start_step * args.steps)` (nonnegative for the
fractional schedule bounds in `[0, 1]`). -/
def startStep (a : Args) : ℕ :=
  (pyInt (a.start_step * a.steps)).toNat

/-- `self.end_step = int(args.end_step * args.steps)`. -/
def endStep (a : Args) : ℕ :=
  (pyInt (a.end_step * a.steps)).toNat

/-- `Pruner.compute_sparsity(step)`, over the reals (the two cyclic ramps use
`math.sin`).  The source has no `else` branch: an unrecognised `ramp_type`
leaves `prune_compute` unbound (`UnboundLocalError`); the final `0` branch
here is unreachable for the three recognised ramp types. -/
noncomputable def compute_sparsity (a : Args) (step : ℕ) : ℝ :=
  if a.ramp_type = "linear" then
    let rate_of_increase : ℝ :=
      ((a.final_sparsity : ℝ) - (a.initial_sparsity : ℝ)) /
        ((endStep a : ℝ) - (startStep a : ℝ))
    (a.initial_sparsity : ℝ) + rate_of_increase * ((step : ℝ) - (startStep a : ℝ))
  else if a.ramp_type = "half_cycle" then
    let sin_inner : ℝ :=
      Real.pi / 2 * ((step % a.ramp_cycle_step : ℕ) : ℝ) / (a.ramp_cycle_step : ℝ)
    (a.final_sparsity : ℝ) * Real.sin sin_inner
  else if a.ramp_type = "full_cycle" then
    let sin_inner : ℝ := Real.pi / 2 * ((step : ℝ) / (a.ramp_cycle_step : ℝ))
    (a.final_sparsity : ℝ) * |Real.sin sin_inner|
  else 0

/-! ## Pruner: global, local, ramping and single-shot pruning -/

/-- `Pruner.global_prune(model, prune_compute)`: concatenate all mask-bearing
layers' flattened weights, take the rank-`int(prune_compute * N)` smallest
absolute value as the single threshold, and give every layer the keep mask
`(torch.abs(w) > threshold).float()` (strict greater-than keep rule).  Masks
are assigned back in the same iteration order used to collect the weights.
The threshold indexing raises `IndexError` if the rank is out of range, before
any mask is assigned. -/
def global_prune (m : Model) (prune_compute : ℚ) : Except PruneError Model :=
  match (sortL ((scoresOf m).map (fun x => |x|)))[ratIdx prune_compute (scoresOf m).length]? with
  | none => .error .indexOutOfRange
  | some threshold =>
      .ok (m.map fun L =>
        { L with
          mask := L.weight.map (fun row =>
            row.map (fun x => if |x| > threshold then (1 : ℚ) else 0)) })

/-- `module.weight * module.mask`, elementwise over the `(out, k)` layout. -/
def hadamard (A B : List (List ℚ)) : List (List ℚ) :=
  A.zipWith (fun r s => r.zipWith (fun x y => x * y) s) B

/-- The body of the `local_prune` loop for one layer: skip the layer when its
observed mask sparsity already exceeds `final_sparsity`; otherwise prune
either `weight * mask` (when `carry_mask`) or the raw weight, and replace the
mask. -/
def pruneLayer (cfg : Args) (pc : ℚ) (L : Layer) : Except PruneError Layer :=
  if mask_sparsity L ≤ cfg.final_sparsity then
    (prune (if cfg.carry_mask then hadamard L.weight L.mask else L.weight)
        pc cfg.prune_type).map (fun msk => { L with mask := msk })
  else
    .ok L

/-- `Pruner.local_prune(model, prune_compute)`: process layers in order.  An
exception aborts the loop; the error carries the model state at that moment
(layers already processed keep their new masks — no rollback — and the
failing layer's mask is unchanged). -/
def local_prune (cfg : Args) (m : Model) (pc : ℚ) : Except (PruneError × Model) Model :=
  match m with
  | [] => .ok []
  | L :: rest =>
    match pruneLayer cfg pc L with
    | .error e => .error (e, L :: rest)
    | .ok L' =>
      match local_prune cfg rest pc with
      | .error (e, rest') => .error (e, L' :: rest')
      | .ok rest' => .ok (L' :: rest')

/-- `Pruner.ramping_prune(model, step)`.  The schedule value comes from
`compute_sparsity`, whose cyclic branches are real-valued (`math.sin`); the
pruning pipeline is exact over `ℚ`, so the scheduler is passed in as the
function argument `sched`.  Its value only matters on steps where pruning
actually fires.  Note the source computes `prune_percent` (and its
`step == end_step` override) before the half-open window check, so the
override is dead: at `step == end_step` the window test already fails. -/
def ramping_prune (cfg : Args) (sched : ℕ → ℚ) (m : Model) (step : ℕ) :
    Except (PruneError × Model) Model :=
  if startStep cfg ≤ step ∧ step < endStep cfg then
    if step % cfg.prune_freq = 0 then
      if cfg.global_prune then
        match global_prune m
            (if step = endStep cfg then cfg.final_sparsity else sched step) with
        | .error e => .error (e, m)
        | .ok m' => .ok m'
      else
        local_prune cfg m
          (if step = endStep cfg then cfg.final_sparsity else sched step)
    else .ok m
  else .ok m

/-- `Pruner.single_shot_prune(model, step)`: prune to `final_sparsity` exactly
when `step == self.start_step`, otherwise return the model unchanged. -/
def single_shot_prune (cfg : Args) (m : Model) (step : ℕ) :
    Except (PruneError × Model) Model :=
  if step = startStep cfg then
    if cfg.global_prune then
      match global_prune m cfg.final_sparsity with
      | .error e => .error (e, m)
      | .ok m' => .ok m'
    else
      local_prune cfg m cfg.final_sparsity
  else .ok m

/-- `Pruner.step(model, step)`: ramping or single-shot, as configured. -/
def Pruner.step (cfg : Args) (sched : ℕ → ℚ) (m : Model) (step : ℕ) :
    Except (PruneError × Model) Model :=
  if cfg.ramping then ramping_prune cfg sched m step
  else single_shot_prune cfg m step

/-! ## The PGD attack -/

/-- The `PGD` attack parameters (`alpha`, `steps`, `random_start`; `eps` is
passed to `forward` explicitly, defaulting to the constructor's `0.3`). -/
structure PGDArgs where
  alpha : ℚ
  steps : ℕ
  random_start : Bool
  deriving DecidableEq

/-- One iteration of the `PGD.forward` loop.  The image batch is modelled as a
flattened list of pixels; `gradOracle` abstracts
`torch.autograd.grad(criterion(model(adv), labels), adv)`, the gradient of the
loss at the current adversarial input (recomputed fresh each iteration).  The
update is sign-gradient ascent followed by the two clamps of the source:
`delta = clamp(adv - images, -eps, eps)`, `adv = clamp(images + delta, 0, 1)`. -/
def pgd_step (gradOracle : List ℚ → List ℚ) (images : List ℚ) (eps alpha : ℚ)
    (adv : List ℚ) : List ℚ :=
  let adv' := adv.zipWith (fun a g => a + alpha * torchSign g) (gradOracle adv)
  let delta := adv'.zipWith (fun a x => clampQ (-eps) eps (a - x)) images
  images.zipWith (fun x d => clampQ 0 1 (x + d)) delta

/-- `PGD.forward(model, images, labels, eps)`: optional uniform random start
inside the eps-ball (the sampled noise is abstracted as `rand`, constrained by
hypothesis where needed), then `steps` iterations of `pgd_step`.  The model and
criterion appear only through `gradOracle`; the model's parameters are read,
never written (the embedding is a pure function of the inputs). -/
def PGD.forward (a : PGDArgs) (gradOracle : List ℚ → List ℚ) (rand : List ℚ)
    (images : List ℚ) (eps : ℚ) : List ℚ :=
  (pgd_step gradOracle images eps a.alpha)^[a.steps]
    (if a.random_start
      then images.zipWith (fun x r => clampQ 0 1 (x + r)) rand
      else images)

/-! ## Utility lemmas on sorting and counting -/

theorem sortL_perm (l : List ℚ) : List.Perm (sortL l) l :=
  List.perm_insertionSort _ l

theorem sortL_sorted (l : List ℚ) : (sortL l).Sorted (· ≤ ·) :=
  List.sorted_insertionSort _ l

theorem sortL_length (l : List ℚ) : (sortL l).length = l.length :=
  (sortL_perm l).length_eq

theorem mem_sortL {l : List ℚ} {x : ℚ} : x ∈ sortL l ↔ x ∈ l :=
  (sortL_perm l).mem_iff

theorem sortL_getElem_mem {l : List ℚ} {i : ℕ} (h : i < (sortL l).length) :
    (sortL l)[i] ∈ l :=
  mem_sortL.1 (List.getElem_mem h)

/-- Entries of a sorted list are monotone in the index. -/
theorem sorted_getElem_le {l : List ℚ} (hs : l.Sorted (· ≤ ·)) {i j : ℕ}
    (hij : i ≤ j) (hj : j < l.length) :
    l[i] ≤ l[j] := by
  rcases eq_or_lt_of_le hij with rfl | hlt
  · exact le_rfl
  · exact List.pairwise_iff_getElem.1 hs i j _ hj hlt

/-- At most `i` entries of a sorted list are strictly below its rank-`i`
value. -/
theorem sorted_countP_lt {s : List ℚ} (hs : s.Sorted (· ≤ ·)) {i : ℕ} (h : i < s.length) :
    s.countP (fun x => decide (x < s[i])) ≤ i := by
  generalize ht : s[i] = t
  have hsplit : s.countP (fun x => decide (x < t))
      = (s.take (i + 1)).countP (fun x => decide (x < t))
        + (s.drop (i + 1)).countP (fun x => decide (x < t)) := by
    conv_lhs => rw [← List.take_append_drop (i + 1) s]
    rw [List.countP_append]
  have hdrop : (s.drop (i + 1)).countP (fun x => decide (x < t)) = 0 := by
    rw [List.countP_eq_zero]
    intro a ha
    obtain ⟨j, hj, rfl⟩ := List.mem_iff_getElem.1 ha
    have hj' : i + 1 + j < s.length := by
      rw [List.length_drop] at hj
      omega
    rw [List.getElem_drop]
    rw [← ht]
    simpa using not_lt.2 (sorted_getElem_le hs (by omega) hj')
  have htake_len : (s.take (i + 1)).length = i + 1 := by
    rw [List.length_take]
    omega
  have hmem : t ∈ s.take (i + 1) := by
    have h1 : (s.take (i + 1))[i] = s[i] := List.getElem_take ..
    rw [← ht, ← h1]
    exact List.getElem_mem _
  have htake : (s.take (i + 1)).countP (fun x => decide (x < t)) < i + 1 := by
    refine lt_of_lt_of_le ?_ (le_of_eq htake_len)
    rcases lt_or_eq_of_le (List.countP_le_length (p := fun x => decide (x < t))
      (l := s.take (i + 1))) with hlt | heq
    · exact hlt
    · exact absurd (by simpa using List.countP_eq_length.1 heq _ hmem) (lt_irrefl t)
  omega

/-- At least `i + 1` entries of a sorted list are at or below its rank-`i`
value. -/
theorem sorted_rank_le_countP {s : List ℚ} (hs : s.Sorted (· ≤ ·)) {i : ℕ} (h : i < s.length) :
    i + 1 ≤ s.countP (fun x => decide (x ≤ s[i])) := by
  generalize ht : s[i] = t
  have hsplit : s.countP (fun x => decide (x ≤ t))
      = (s.take (i + 1)).countP (fun x => decide (x ≤ t))
        + (s.drop (i + 1)).countP (fun x => decide (x ≤ t)) := by
    conv_lhs => rw [← List.take_append_drop (i + 1) s]
    rw [List.countP_append]
  have htake_len : (s.take (i + 1)).length = i + 1 := by
    rw [List.length_take]
    omega
  have htake : (s.take (i + 1)).countP (fun x => decide (x ≤ t)) = i + 1 := by
    refine Eq.trans (List.countP_eq_length.2 ?_) htake_len
    intro a ha
    obtain ⟨j, hj, rfl⟩ := List.mem_iff_getElem.1 ha
    rw [List.getElem_take, ← ht]
    have hji : j ≤ i := by omega
    simpa using sorted_getElem_le hs hji h
  omega

/-- In a sorted duplicate-free list, exactly `length - i - 1` entries lie
strictly above the rank-`i` value. -/
theorem sorted_countP_gt_of_nodup {s : List ℚ} (hs : s.Sorted (· ≤ ·)) (hn : s.Nodup)
    {i : ℕ} (h : i < s.length) :
    s.countP (fun x => decide (s[i] < x)) = s.length - i - 1 := by
  generalize ht : s[i] = t
  have hsplit : s.countP (fun x => decide (t < x))
      = (s.take (i + 1)).countP (fun x => decide (t < x))
        + (s.drop (i + 1)).countP (fun x => decide (t < x)) := by
    conv_lhs => rw [← List.take_append_drop (i + 1) s]
    rw [List.countP_append]
  have htake : (s.take (i + 1)).countP (fun x => decide (t < x)) = 0 := by
    rw [List.countP_eq_zero]
    intro a ha
    obtain ⟨j, hj, rfl⟩ := List.mem_iff_getElem.1 ha
    rw [List.getElem_take, ← ht]
    have hji : j ≤ i := by
      rw [List.length_take] at hj
      omega
    simpa using not_lt.2 (sorted_getElem_le hs hji h)
  have hdrop_len : (s.drop (i + 1)).length = s.length - i - 1 := by
    rw [List.length_drop]
    omega
  have hdrop : (s.drop (i + 1)).countP (fun x => decide (t < x))
      = s.length - i - 1 := by
    refine Eq.trans (List.countP_eq_length.2 ?_) hdrop_len
    intro a ha
    obtain ⟨j, hj, rfl⟩ := List.mem_iff_getElem.1 ha
    have hj' : i + 1 + j < s.length := by
      rw [List.length_drop] at hj
      omega
    rw [List.getElem_drop, ← ht]
    have hle : s[i] ≤ s[i + 1 + j] := sorted_getElem_le hs (by omega) hj'
    have hne : s[i] ≠ s[i + 1 + j] := fun heq =>
      absurd ((List.Nodup.getElem_inj_iff hn).1 heq) (by omega)
    simpa using lt_of_le_of_ne hle hne
  omega

/-- Transfer of `sorted_countP_lt` to an unsorted list and its sorted copy. -/
theorem countP_lt_rank_le {l : List ℚ} {i : ℕ} (h : i < (sortL l).length) :
    l.countP (fun x => decide (x < (sortL l)[i])) ≤ i := by
  rw [(sortL_perm l).symm.countP_eq]
  exact sorted_countP_lt (sortL_sorted l) h

/-- Transfer of `sorted_rank_le_countP` to an unsorted list. -/
theorem rank_le_countP_le {l : List ℚ} {i : ℕ} (h : i < (sortL l).length) :
    i + 1 ≤ l.countP (fun x => decide (x ≤ (sortL l)[i])) := by
  rw [(sortL_perm l).symm.countP_eq]
  exact sorted_rank_le_countP (sortL_sorted l) h

/-- Transfer of `sorted_countP_gt_of_nodup` to an unsorted list. -/
theorem countP_gt_rank_of_nodup {l : List ℚ} (hn : l.Nodup) {i : ℕ}
    (h : i < (sortL l).length) :
    l.countP (fun x => decide ((sortL l)[i] < x)) = l.length - i - 1 := by
  rw [(sortL_perm l).symm.countP_eq, ← sortL_length l]
  exact sorted_countP_gt_of_nodup (sortL_sorted l) ((sortL_perm l).nodup_iff.2 hn) h

/-- The rank-0 value of the sorted copy is a lower bound for every entry. -/
theorem rank_zero_le {l : List ℚ} (h : 0 < (sortL l).length) {x : ℚ} (hx : x ∈ l) :
    (sortL l)[0] ≤ x := by
  obtain ⟨j, hj, rfl⟩ := List.mem_iff_getElem.1 (mem_sortL.2 hx)
  exact sorted_getElem_le (sortL_sorted l) (Nat.zero_le j) hj

/-- Sorting commutes with applying a monotone map to every entry. -/
theorem sortL_map_monotone {f : ℚ → ℚ} (hf : Monotone f) (l : List ℚ) :
    sortL (l.map f) = (sortL l).map f := by
  refine List.eq_of_perm_of_sorted ?_ (sortL_sorted _) ?_
  · exact (sortL_perm _).trans ((sortL_perm l).map f).symm
  · exact List.Pairwise.map f (fun a b hab => hf hab) (sortL_sorted l)

/-! ## Utility lemmas on `ratIdx` and `pyInt` -/

theorem pyInt_eq_floor {q : ℚ} (h : 0 ≤ q) : pyInt q = ⌊q⌋ := by
  rw [Rat.floor_def, pyInt, Int.tdiv_eq_ediv (Rat.num_nonneg.2 h) (Int.ofNat_le.2 q.den.zero_le)]

theorem ratIdx_zero (n : ℕ) : ratIdx 0 n = 0 := by
  simp [ratIdx, pyInt]

theorem ratIdx_one (n : ℕ) : ratIdx 1 n = n := by
  simp [ratIdx, pyInt]

/-- For `0 ≤ f < 1` and `0 < n` the rank index is in range. -/
theorem ratIdx_lt {f : ℚ} (h0 : 0 ≤ f) (h1 : f < 1) {n : ℕ} (hn : 0 < n) :
    ratIdx f n < n := by
  rw [ratIdx, pyInt_eq_floor (by positivity)]
  have hlt : f * n < n := by
    calc f * (n : ℚ) < 1 * n := by
          exact mul_lt_mul_of_pos_right h1 (by exact_mod_cast hn)
      _ = n := one_mul _
  have : ⌊f * (n : ℚ)⌋ < (n : ℤ) := Int.floor_lt.2 (by exact_mod_cast hlt)
  omega

/-! ## Counting helpers -/

/-- Index-aligned count comparison between two lists of equal length. -/
theorem countP_mono_getElem {p q : ℚ → Bool} :
    ∀ {a b : List ℚ}, b.length = a.length →
      (∀ i (hib : i < b.length) (hia : i < a.length), q b[i] → p a[i]) →
      b.countP q ≤ a.countP p := by
  intro a
  induction a with
  | nil =>
    intro b hlen _
    rw [List.length_nil, List.length_eq_zero] at hlen
    subst hlen
    simp
  | cons x a ih =>
    intro b hlen himp
    match b with
    | [] => simp
    | y :: b =>
      simp only [List.length_cons, Nat.succ_inj] at hlen
      have h0 : q y → p x := by
        have := himp 0 (by simp) (by simp)
        simpa using this
      have htail : b.countP q ≤ a.countP p := by
        refine ih hlen ?_
        intro i hib hia hq
        have := himp (i + 1) (by simpa using Nat.succ_lt_succ hib)
          (by simpa using Nat.succ_lt_succ hia)
        simpa using this hq
      rw [List.countP_cons, List.countP_cons]
      by_cases hqy : q y
      · have hpx : p x := h0 hqy
        simp only [hqy, hpx, if_true]
        omega
      · simp only [hqy, if_false]
        by_cases hpx : p x <;> simp [hpx] <;> omega

/-- Count comparison over flattened nested lists with index-aligned rows. -/
theorem countP_flatten_mono {p q : ℚ → Bool} :
    ∀ {A B : List (List ℚ)}, B.length = A.length →
      (∀ i (hib : i < B.length) (hia : i < A.length),
        (B[i]).countP q ≤ (A[i]).countP p) →
      B.flatten.countP q ≤ A.flatten.countP p := by
  intro A
  induction A with
  | nil =>
    intro B hlen _
    rw [List.length_nil, List.length_eq_zero] at hlen
    subst hlen
    simp
  | cons r A ih =>
    intro B hlen hrow
    match B with
    | [] => simp
    | s :: B =>
      simp only [List.length_cons, Nat.succ_inj] at hlen
      have h0 : s.countP q ≤ r.countP p := by
        have := hrow 0 (by simp) (by simp)
        simpa using this
      have htail : B.flatten.countP q ≤ A.flatten.countP p := by
        refine ih hlen ?_
        intro i hib hia
        have := hrow (i + 1) (by simpa using Nat.succ_lt_succ hib)
          (by simpa using Nat.succ_lt_succ hia)
        simpa using this
      simp only [List.flatten_cons, List.countP_append]
      omega

/-! ## Option `mapM` characterisation -/

/-- Success of `List.mapM` over `Option`, element by element. -/
theorem mapM_option_eq_some {α β : Type} {f : α → Option β} :
    ∀ {l : List α} {l' : List β},
      l.mapM f = some l' ↔ List.Forall₂ (fun a b => f a = some b) l l' := by
  intro l
  induction l with
  | nil =>
    intro l'
    constructor
    · intro h
      simp only [List.mapM_nil] at h
      cases h
      exact List.Forall₂.nil
    · intro h
      cases h
      rfl
  | cons a l ih =>
    intro l'
    constructor
    · intro h
      simp only [List.mapM_cons] at h
      cases hfa : f a with
      | none => rw [hfa] at h; simp at h
      | some b =>
        rw [hfa] at h
        cases hrest : l.mapM f with
        | none => rw [hrest] at h; simp at h
        | some bs =>
          rw [hrest] at h
          simp only [Option.bind_some, Option.pure_def, Option.some_inj] at h
          cases h
          exact List.Forall₂.cons hfa (ih.1 hrest)
    · intro h
      cases h with
      | cons hab htail =>
        simp only [List.mapM_cons, hab, ih.2 htail]
        rfl

/-! ## The keep map and threshold stability -/

/-- Zeroing-out below a nonnegative cutoff is monotone. -/
theorem keep_monotone {t : ℚ} (ht : 0 ≤ t) :
    Monotone (fun x => if x < t then (0 : ℚ) else x) := by
  intro x y hxy
  by_cases hy : y < t
  · have hx : x < t := lt_of_le_of_lt hxy hy
    simp [hx, hy]
  · by_cases hx : x < t
    · simp only [hx, hy, if_true, if_false]
      linarith [not_lt.1 hy]
    · simpa [hx, hy] using hxy

theorem getElem?_sortL_map_monotone {f : ℚ → ℚ} (hf : Monotone f) (l : List ℚ) (i : ℕ) :
    (sortL (l.map f))[i]? = ((sortL l)[i]?).map f := by
  rw [sortL_map_monotone hf, List.getElem?_map]

/-- Zeroing-out the entries of a nonnegative list strictly below its rank-`idx`
value leaves the rank-`idx` value unchanged. -/
theorem sortL_keep_rank {a : List ℚ} {idx : ℕ} {t : ℚ}
    (ha : ∀ x ∈ a, 0 ≤ x) (ht : (sortL a)[idx]? = some t) :
    (sortL (a.map (fun x => if x < t then (0 : ℚ) else x)))[idx]? = some t := by
  have htmem : t ∈ a := by
    obtain ⟨hl, hv⟩ := List.getElem?_eq_some_iff.1 ht
    exact hv ▸ sortL_getElem_mem hl
  have ht0 : 0 ≤ t := ha t htmem
  rw [getElem?_sortL_map_monotone (keep_monotone ht0), ht]
  simp

/-- If all entries of `a` are nonnegative and the aligned entries of `b` are
zero below the threshold `t` of `a` and dominate `a` elsewhere, then every
below-threshold entry of `a` is also below the rank-`idx` threshold of `b`. -/
theorem second_prune_pointwise {a b : List ℚ} {idx : ℕ} {t t' : ℚ}
    (ha : ∀ x ∈ a, 0 ≤ x) (hlen : b.length = a.length)
    (ht : (sortL a)[idx]? = some t) (ht' : (sortL b)[idx]? = some t')
    (hrel0 : ∀ i (hia : i < a.length) (hib : i < b.length), a[i] < t → b[i] = 0)
    (hrel1 : ∀ i (hia : i < a.length) (hib : i < b.length), ¬ a[i] < t → a[i] ≤ b[i]) :
    ∀ i (hia : i < a.length) (hib : i < b.length), a[i] < t → b[i] < t' := by
  intro i hia hib hlt
  have hpos : 0 < t := lt_of_le_of_lt (ha _ (List.getElem_mem hia)) hlt
  have hbz : b[i] = 0 := hrel0 i hia hib hlt
  have ht'pos : 0 < t' := by
    by_contra hc
    push_neg at hc
    obtain ⟨hbl, hbv⟩ := List.getElem?_eq_some_iff.1 ht'
    have h1 : idx + 1 ≤ b.countP (fun x => decide (x ≤ t')) := hbv ▸ rank_le_countP_le hbl
    have h2 : b.countP (fun x => decide (x ≤ t')) ≤ a.countP (fun x => decide (x < t)) := by
      refine countP_mono_getElem hlen ?_
      intro j hjb hja hq
      simp only [decide_eq_true_eq] at hq ⊢
      by_contra hnot
      push_neg at hnot
      have hge : t ≤ a[j] := hnot
      have hab : a[j] ≤ b[j] := hrel1 j hja hjb (not_lt.2 hge)
      have : (0 : ℚ) < b[j] := lt_of_lt_of_le hpos (le_trans hge hab)
      linarith [le_trans hq hc]
    obtain ⟨hal, hav⟩ := List.getElem?_eq_some_iff.1 ht
    have h3 : a.countP (fun x => decide (x < t)) ≤ idx := hav ▸ countP_lt_rank_le hal
    omega
  rw [hbz]
  exact ht'pos

/-! ## Elementwise weight–mask product -/

/-- Multiplying by an all-ones mask of the same shape is the identity. -/
theorem hadamard_ones (A : List (List ℚ)) :
    hadamard A (A.map (fun r => r.map (fun _ => (1 : ℚ)))) = A := by
  rw [hadamard, List.zipWith_map_right, List.zipWith_same]
  refine Eq.trans (List.map_congr_left ?_) (List.map_id A)
  intro r _
  rw [List.zipWith_map_right, List.zipWith_same]
  refine Eq.trans (List.map_congr_left ?_) (List.map_id r)
  intro x _
  simp

/-! ## Idempotence of `prune` on the masked weight -/

theorem pruneRowW_eq_some {idx : ℕ} {row mrow : List ℚ} :
    pruneRowW idx row = some mrow ↔
      ∃ t, (sortL (row.map (fun x => |x|)))[idx]? = some t ∧
        mrow = (row.map (fun x => |x|)).map (fun x => if x < t then (0 : ℚ) else 1) := by
  unfold pruneRowW
  cases h : (sortL (row.map (fun x => |x|)))[idx]? with
  | none => simp
  | some t => simp [eq_comm]

/-- Multiplying a row by its own fresh prune mask zeroes exactly the
below-threshold entries. -/
theorem zipWith_mul_mark (row : List ℚ) (t : ℚ) :
    row.zipWith (fun x y => x * y)
        ((row.map (fun x => |x|)).map (fun x => if x < t then (0 : ℚ) else 1))
      = row.map (fun x => if |x| < t then (0 : ℚ) else x) := by
  rw [List.map_map, List.zipWith_map_right, List.zipWith_same]
  refine List.map_congr_left ?_
  intro x _
  by_cases h : |x| < t <;> simp [h, Function.comp]

/-- Magnitudes of the masked row are the kept magnitudes of the original. -/
theorem map_abs_keep (row : List ℚ) (t : ℚ) :
    (row.map (fun x => if |x| < t then (0 : ℚ) else x)).map (fun x => |x|)
      = (row.map (fun x => |x|)).map (fun x => if x < t then (0 : ℚ) else x) := by
  rw [List.map_map, List.map_map]
  refine List.map_congr_left ?_
  intro x _
  by_cases h : |x| < t <;> simp [h, Function.comp]

/-- Re-pruning a row already multiplied by its own prune mask reproduces the
same threshold and the same mask. -/
theorem pruneRowW_idem {idx : ℕ} {row mrow : List ℚ}
    (h : pruneRowW idx row = some mrow) :
    pruneRowW idx (row.zipWith (fun x y => x * y) mrow) = some mrow := by
  obtain ⟨t, ht, rfl⟩ := pruneRowW_eq_some.1 h
  have hnn : ∀ x ∈ row.map (fun x => |x|), 0 ≤ x := by
    intro x hx
    obtain ⟨y, _, rfl⟩ := List.mem_map.1 hx
    exact abs_nonneg y
  rw [pruneRowW_eq_some]
  refine ⟨t, ?_, ?_⟩
  · rw [zipWith_mul_mark, map_abs_keep]
    exact sortL_keep_rank hnn ht
  · rw [zipWith_mul_mark, map_abs_keep]
    simp only [List.map_map]
    refine (List.map_congr_left ?_).symm
    intro y _
    simp only [Function.comp_apply]
    by_cases hlt : |y| < t
    · have ht0 : (0 : ℚ) < t := lt_of_le_of_lt (abs_nonneg y) hlt
      simp [hlt, ht0]
    · simp [hlt]

/-- The mask a successful `pruneRowW` returns has the row's length. -/
theorem pruneRowW_length {idx : ℕ} {row mrow : List ℚ}
    (h : pruneRowW idx row = some mrow) : mrow.length = row.length := by
  obtain ⟨t, _, rfl⟩ := pruneRowW_eq_some.1 h
  simp

/-- Lifting a rowwise idempotence property through `mapM` and `hadamard`. -/
theorem forall2_mapM_hadamard {f : List ℚ → Option (List ℚ)}
    (hf : ∀ row mrow, f row = some mrow →
      f (row.zipWith (fun x y => x * y) mrow) = some mrow) :
    ∀ {w msk : List (List ℚ)}, List.Forall₂ (fun r m => f r = some m) w msk →
      List.Forall₂ (fun r m => f r = some m) (hadamard w msk) msk := by
  intro w msk h
  induction h with
  | nil => exact .nil
  | @cons r m w' msk' hrm _ ih => exact List.Forall₂.cons (hf r m hrm) ih

/-- `pruneWeight` is idempotent on the masked weight: pruning `w * mask`
again, with the mask just produced for `w`, returns the same mask. -/
theorem pruneWeight_idem {w msk : List (List ℚ)} {perc : ℚ}
    (h : pruneWeight w perc = some msk) :
    pruneWeight (hadamard w msk) perc = some msk := by
  unfold pruneWeight at h ⊢
  cases w with
  | nil =>
    have : msk = [] := by
      have := mapM_option_eq_some.1 h
      cases this
      rfl
    subst this
    rfl
  | cons r w' =>
    have hall := mapM_option_eq_some.1 h
    cases hall with
    | @cons _ m _ msk' hrm htail =>
      have hmlen : m.length = r.length := pruneRowW_length hrm
      have hhead : hadamard (r :: w') (m :: msk')
          = (r.zipWith (fun x y => x * y) m) :: hadamard w' msk' := rfl
      have hklen : ((hadamard (r :: w') (m :: msk')).head?.map List.length).getD 0
          = (((r :: w') : List (List ℚ)).head?.map List.length).getD 0 := by
        rw [hhead]
        simp [List.length_zipWith, hmlen]
      rw [hklen]
      exact mapM_option_eq_some.2
        (forall2_mapM_hadamard (fun _ _ => pruneRowW_idem) (.cons hrm htail))

/-- Squared norms are nonnegative. -/
theorem sqNorm_nonneg (row : List ℚ) : 0 ≤ sqNorm row := by
  refine List.sum_nonneg ?_
  intro x hx
  obtain ⟨y, _, rfl⟩ := List.mem_map.1 hx
  positivity

/-- The squared norm of a row multiplied by the constant `0`/`1` unit mask
value is the kept squared norm. -/
theorem sqNorm_unit_masked (row : List ℚ) (c : Prop) [Decidable c] :
    sqNorm (row.zipWith (fun x y => x * y) (row.map (fun _ => if c then (0 : ℚ) else 1)))
      = if c then 0 else sqNorm row := by
  rw [List.zipWith_map_right, List.zipWith_same]
  by_cases hc : c
  · simp [hc, sqNorm, List.map_map, Function.comp]
  · simp [hc, sqNorm, List.map_map, Function.comp]

/-- Constant maps over lists of equal length agree. -/
theorem map_const_eq_of_length {α : Type} {l l' : List α} (h : l.length = l'.length) (c : ℚ) :
    l.map (fun _ => c) = l'.map (fun _ => c) := by
  rw [List.map_const', List.map_const', h]

/-- `pruneUnit` is idempotent on the masked weight. -/
theorem pruneUnit_idem {w msk : List (List ℚ)} {perc : ℚ}
    (h : pruneUnit w perc = some msk) :
    pruneUnit (hadamard w msk) perc = some msk := by
  unfold pruneUnit at h ⊢
  cases hthr : (sortL (w.map sqNorm))[ratIdx perc w.length]? with
  | none => rw [hthr] at h; exact absurd h (by simp)
  | some t =>
    rw [hthr] at h
    simp only [Option.some_inj] at h
    subst h
    have hhad : hadamard w (w.map (fun row =>
        row.map (fun _ => if sqNorm row < t then (0 : ℚ) else 1)))
        = w.map (fun row =>
            row.zipWith (fun x y => x * y)
              (row.map (fun _ => if sqNorm row < t then (0 : ℚ) else 1))) := by
      rw [hadamard, List.zipWith_map_right, List.zipWith_same]
    rw [hhad]
    have hnorm : (w.map (fun row =>
        row.zipWith (fun x y => x * y)
          (row.map (fun _ => if sqNorm row < t then (0 : ℚ) else 1)))).map sqNorm
        = (w.map sqNorm).map (fun x => if x < t then (0 : ℚ) else x) := by
      rw [List.map_map, List.map_map]
      refine List.map_congr_left ?_
      intro row _
      have hsq := sqNorm_unit_masked row (sqNorm row < t)
      simp only [Function.comp]
      rw [hsq]
    have hnn : ∀ x ∈ w.map sqNorm, 0 ≤ x := by
      intro x hx
      obtain ⟨row, _, rfl⟩ := List.mem_map.1 hx
      exact sqNorm_nonneg row
    have hlen : (w.map (fun row =>
        row.zipWith (fun x y => x * y)
          (row.map (fun _ => if sqNorm row < t then (0 : ℚ) else 1)))).length = w.length := by
      simp
    rw [hlen, hnorm, sortL_keep_rank hnn hthr]
    show some _ = some _
    refine congrArg some ?_
    rw [List.map_map]
    refine List.map_congr_left ?_
    intro row _
    simp only [Function.comp_apply]
    have hsq := sqNorm_unit_masked row (sqNorm row < t)
    rw [hsq]
    have hval : (if (if sqNorm row < t then (0 : ℚ) else sqNorm row) < t then (0 : ℚ) else 1)
        = (if sqNorm row < t then (0 : ℚ) else 1) := by
      by_cases hc : sqNorm row < t
      · have ht0 : (0 : ℚ) < t := lt_of_le_of_lt (sqNorm_nonneg row) hc
        simp [hc, ht0]
      · simp [hc]
    rw [hval]
    have hrl : (row.zipWith (fun x y => x * y)
        (row.map (fun _ => if sqNorm row < t then (0 : ℚ) else 1))).length = row.length := by
      simp
    exact map_const_eq_of_length hrl _

/-- `prune` is idempotent on the masked weight, for both granularities. -/
theorem prune_idem {w msk : List (List ℚ)} {pc : ℚ} {ty : String}
    (h : prune w pc ty = .ok msk) :
    prune (hadamard w msk) pc ty = .ok msk := by
  by_cases hw : ty = "weight"
  · subst hw
    unfold prune at h ⊢
    rw [if_pos rfl] at h ⊢
    cases hpw : pruneWeight w pc with
    | none => rw [hpw] at h; exact absurd h (by simp)
    | some m =>
      rw [hpw] at h
      simp only [Except.ok.injEq] at h
      subst h
      rw [pruneWeight_idem hpw]
  · by_cases hu : ty = "unit"
    · subst hu
      unfold prune at h ⊢
      rw [if_neg (by decide), if_pos rfl] at h ⊢
      cases hpu : pruneUnit w pc with
      | none => rw [hpu] at h; exact absurd h (by simp)
      | some m =>
        rw [hpu] at h
        simp only [Except.ok.injEq] at h
        subst h
        rw [pruneUnit_idem hpu]
    · unfold prune at h
      rw [if_neg hw, if_neg hu] at h
      exact absurd h (by simp)

/-! ## Layer- and model-level idempotence -/

/-- A layer whose mask is all ones (the fresh state of a mask-bearing layer). -/
def OnesMask (L : Layer) : Prop :=
  L.mask = L.weight.map (fun r => r.map (fun _ => (1 : ℚ)))

instance (L : Layer) : Decidable (OnesMask L) := by
  unfold OnesMask
  infer_instance

/-- One pass of the `local_prune` body is idempotent on a layer, provided the
mask going into the first pass is all ones whenever `carry_mask` compounds the
mask into the pruning magnitudes. -/
theorem pruneLayer_idem {cfg : Args} {pc : ℚ} {L L' : Layer}
    (hones : cfg.carry_mask = true → OnesMask L)
    (h : pruneLayer cfg pc L = .ok L') :
    pruneLayer cfg pc L' = .ok L' := by
  unfold pruneLayer at h ⊢
  by_cases hguard : mask_sparsity L ≤ cfg.final_sparsity
  · rw [if_pos hguard] at h
    cases hpr : prune (if cfg.carry_mask then hadamard L.weight L.mask else L.weight)
        pc cfg.prune_type with
    | error e => rw [hpr] at h; exact absurd h (by simp [Except.map])
    | ok msk =>
      rw [hpr] at h
      simp only [Except.map, Except.ok.injEq] at h
      subst h
      by_cases hguard' : mask_sparsity { L with mask := msk } ≤ cfg.final_sparsity
      · rw [if_pos hguard']
        cases hc : cfg.carry_mask with
        | false =>
          rw [hc] at hpr
          simp only [Bool.false_eq_true, if_false] at hpr
          simp only [hc, Bool.false_eq_true, if_false]
          rw [hpr]
          rfl
        | true =>
          rw [hc] at hpr
          simp only [if_true] at hpr
          rw [hones hc, hadamard_ones] at hpr
          simp only [hc, if_true]
          rw [prune_idem hpr]
          rfl
      · rw [if_neg hguard']
  · rw [if_neg hguard] at h
    cases h
    rw [if_neg hguard]

/-- `local_prune` is idempotent when every layer starts all-ones in the
carry-mask regime. -/
theorem local_prune_idem {cfg : Args} {pc : ℚ} :
    ∀ {m m₁ : Model},
      (cfg.carry_mask = true → ∀ L ∈ m, OnesMask L) →
      local_prune cfg m pc = .ok m₁ →
      local_prune cfg m₁ pc = .ok m₁ := by
  intro m
  induction m with
  | nil =>
    intro m₁ _ h
    cases h
    rfl
  | cons L rest ih =>
    intro m₁ hones h
    unfold local_prune at h
    cases hL : pruneLayer cfg pc L with
    | error e => rw [hL] at h; exact absurd h (by simp)
    | ok L' =>
      rw [hL] at h
      cases hrest : local_prune cfg rest pc with
      | error p => rw [hrest] at h; exact absurd h (by simp)
      | ok rest₁ =>
        rw [hrest] at h
        cases h
        have hL'idem : pruneLayer cfg pc L' = .ok L' :=
          pruneLayer_idem (fun hc => hones hc L (List.mem_cons_self L rest)) hL
        have hrest₁ : local_prune cfg rest₁ pc = .ok rest₁ :=
          ih (fun hc K hK => hones hc K (List.mem_cons_of_mem L hK)) hrest
        unfold local_prune
        rw [hL'idem, hrest₁]

/-- `global_prune` is idempotent: the threshold depends only on the weights,
which it never changes. -/
theorem global_prune_idem {m m₁ : Model} {f : ℚ}
    (h : global_prune m f = .ok m₁) :
    global_prune m₁ f = .ok m₁ := by
  unfold global_prune at h ⊢
  cases hthr : (sortL ((scoresOf m).map (fun x => |x|)))[ratIdx f (scoresOf m).length]? with
  | none => rw [hthr] at h; exact absurd h (by simp)
  | some t =>
    rw [hthr] at h
    simp only [Except.ok.injEq] at h
    subst h
    have hscores : scoresOf (m.map fun L =>
        { L with mask := L.weight.map (fun row =>
            row.map (fun x => if |x| > t then (1 : ℚ) else 0)) }) = scoresOf m := by
      unfold scoresOf
      simp only [List.map_map]
      refine congrArg List.flatten ?_
      refine List.map_congr_left ?_
      intro L _
      rfl
    rw [hscores, hthr]
    refine congrArg Except.ok ?_
    rw [List.map_map]
    refine List.map_congr_left ?_
    intro L _
    rfl

/-! ## Frame lemmas and error propagation -/

/-- `single_shot_prune` is the identity away from `start_step`. -/
theorem single_shot_frame {cfg : Args} {m : Model} {step : ℕ}
    (h : step ≠ startStep cfg) :
    single_shot_prune cfg m step = .ok m := by
  unfold single_shot_prune
  rw [if_neg h]

/-- `ramping_prune` leaves the model untouched outside the active window and
between recompute steps. -/
theorem ramping_frame {cfg : Args} {sched : ℕ → ℚ} {m : Model} {step : ℕ}
    (h : ¬ (startStep cfg ≤ step ∧ step < endStep cfg ∧ step % cfg.prune_freq = 0)) :
    ramping_prune cfg sched m step = .ok m := by
  unfold ramping_prune
  by_cases hw : startStep cfg ≤ step ∧ step < endStep cfg
  · rw [if_pos hw]
    have hf : ¬ step % cfg.prune_freq = 0 := fun hf => h ⟨hw.1, hw.2, hf⟩
    rw [if_neg hf]
  · rw [if_neg hw]

/-- An unsupported granularity makes `prune` fail before any mask exists. -/
theorem prune_unsupported {w : List (List ℚ)} {pc : ℚ} {ty : String}
    (h1 : ty ≠ "weight") (h2 : ty ≠ "unit") :
    prune w pc ty = .error .unsupportedType := by
  unfold prune
  rw [if_neg h1, if_neg h2]

/-- With an unsupported granularity `local_prune` either skips every layer
(when every guard fails) or aborts at the first guard-passing layer; in both
cases the model state carried out is exactly the input model: no layer's mask
is ever replaced. -/
theorem local_prune_unsupported {cfg : Args} {pc : ℚ}
    (h1 : cfg.prune_type ≠ "weight") (h2 : cfg.prune_type ≠ "unit") :
    ∀ m : Model, local_prune cfg m pc = .ok m ∨
      local_prune cfg m pc = .error (.unsupportedType, m) := by
  intro m
  induction m with
  | nil => exact Or.inl rfl
  | cons L rest ih =>
    unfold local_prune
    by_cases hguard : mask_sparsity L ≤ cfg.final_sparsity
    · have hL : pruneLayer cfg pc L = .error .unsupportedType := by
        unfold pruneLayer
        rw [if_pos hguard, prune_unsupported h1 h2]
        rfl
      rw [hL]
      exact Or.inr rfl
    · have hL : pruneLayer cfg pc L = .ok L := by
        unfold pruneLayer
        rw [if_neg hguard]
      rw [hL]
      rcases ih with hok | herr
      · rw [hok]
        exact Or.inl rfl
      · rw [herr]
        exact Or.inr rfl

/-- Idempotence of `single_shot_prune` at the firing step, provided all masks
start all-ones whenever local pruning compounds through `carry_mask`. -/
theorem single_shot_idem {cfg : Args} {m m₁ : Model}
    (hones : cfg.global_prune = false → cfg.carry_mask = true → ∀ L ∈ m, OnesMask L)
    (h : single_shot_prune cfg m (startStep cfg) = .ok m₁) :
    single_shot_prune cfg m₁ (startStep cfg) = .ok m₁ := by
  unfold single_shot_prune at h ⊢
  rw [if_pos rfl] at h ⊢
  cases hg : cfg.global_prune with
  | true =>
    rw [hg] at h
    simp only [if_true] at h ⊢
    cases hgp : global_prune m cfg.final_sparsity with
    | error e => rw [hgp] at h; exact absurd h (by simp)
    | ok m' =>
      rw [hgp] at h
      simp only [Except.ok.injEq] at h
      subst h
      rw [global_prune_idem hgp]
  | false =>
    rw [hg] at h
    simp only [Bool.false_eq_true, if_false] at h ⊢
    exact local_prune_idem (hones hg) h

/-! ## Monotone sparsification under `carry_mask` -/

theorem sqNorm_nil : sqNorm ([] : List ℚ) = 0 := rfl

theorem sqNorm_cons (x : ℚ) (l : List ℚ) : sqNorm (x :: l) = x ^ 2 + sqNorm l := by
  simp [sqNorm]

/-- A row multiplied by an all-zero unit mask has zero squared norm. -/
theorem sqNorm_zip_zero : ∀ (v u : List ℚ),
    sqNorm (v.zipWith (fun x y => x * y) (u.map (fun _ => (0 : ℚ)))) = 0 := by
  intro v
  induction v with
  | nil => intro u; rfl
  | cons x v ih =>
    intro u
    cases u with
    | nil => rfl
    | cons y u =>
      simp only [List.map_cons, List.zipWith_cons_cons, sqNorm_cons, ih u, mul_zero]
      ring

/-- Reviving a binary-masked row (multiplying the raw row by an all-ones mask
of the masked row's length) can only grow the squared norm. -/
theorem sqNorm_remask_ge : ∀ (v m : List ℚ), (∀ x ∈ m, x = 0 ∨ x = 1) →
    sqNorm (v.zipWith (fun x y => x * y) m)
      ≤ sqNorm (v.zipWith (fun x y => x * y)
          ((v.zipWith (fun x y => x * y) m).map (fun _ => (1 : ℚ)))) := by
  intro v
  induction v with
  | nil => intro m _; exact le_refl _
  | cons x v ih =>
    intro m hm
    cases m with
    | nil => exact le_refl _
    | cons y m =>
      have hy : y = 0 ∨ y = 1 := hm y (List.mem_cons_self y m)
      have htail := ih m (fun z hz => hm z (List.mem_cons_of_mem y hz))
      simp only [List.map_cons, List.zipWith_cons_cons, sqNorm_cons, mul_one]
      have hhead : (x * y) ^ 2 ≤ x ^ 2 := by
        rcases hy with rfl | rfl
        · simpa using sq_nonneg x
        · simp
      exact add_le_add hhead htail

/-- Weight-granularity, one row: re-pruning the row masked by its own fresh
mask never revives an entry, so the one-count of the second mask is bounded by
the first (the second threshold stays above every newly-zeroed magnitude). -/
theorem row_ones_mono {v m0 m1 m2 : List ℚ} {idx : ℕ}
    (hbin : ∀ x ∈ m0, x = 0 ∨ x = 1)
    (h1 : pruneRowW idx (v.zipWith (fun x y => x * y) m0) = some m1)
    (h2 : pruneRowW idx (v.zipWith (fun x y => x * y) m1) = some m2) :
    m2.countP (fun x => decide (x = 1)) ≤ m1.countP (fun x => decide (x = 1)) := by
  obtain ⟨t, ht, hm1⟩ := pruneRowW_eq_some.1 h1
  obtain ⟨t', ht', hm2⟩ := pruneRowW_eq_some.1 h2
  have hla : ((v.zipWith (fun x y => x * y) m0).map (fun x => |x|)).length
      = min v.length m0.length := by simp
  have hlm1 : m1.length = min v.length m0.length := by
    rw [hm1]; simp
  have hlb : ((v.zipWith (fun x y => x * y) m1).map (fun x => |x|)).length
      = min v.length m0.length := by
    simp [hlm1]
  have hlm2 : m2.length = min v.length m0.length := by
    rw [hm2]
    simp [hlm1]
  have ha : ∀ x ∈ (v.zipWith (fun x y => x * y) m0).map (fun x => |x|), 0 ≤ x := by
    intro x hx
    obtain ⟨y, _, rfl⟩ := List.mem_map.1 hx
    exact abs_nonneg y
  have hgetm1 : ∀ i (hi : i < min v.length m0.length),
      m1[i] = (if ((v.zipWith (fun x y => x * y) m0).map (fun x => |x|))[i] < t
        then (0 : ℚ) else 1) := by
    intro i hi
    have : i < ((v.zipWith (fun x y => x * y) m0).map (fun x => |x|)).length := by omega
    simp only [hm1]
    rw [List.getElem_map]
  have hgeta : ∀ i (hi : i < min v.length m0.length),
      ((v.zipWith (fun x y => x * y) m0).map (fun x => |x|))[i]
        = |v[i] * m0[i]| := by
    intro i hi
    rw [List.getElem_map, List.getElem_zipWith]
  have hgetb : ∀ i (hi : i < min v.length m0.length),
      ((v.zipWith (fun x y => x * y) m1).map (fun x => |x|))[i]
        = |v[i] * m1[i]| := by
    intro i hi
    rw [List.getElem_map, List.getElem_zipWith]
  have hrel0 : ∀ i (hia : i < ((v.zipWith (fun x y => x * y) m0).map (fun x => |x|)).length)
      (hib : i < ((v.zipWith (fun x y => x * y) m1).map (fun x => |x|)).length),
      ((v.zipWith (fun x y => x * y) m0).map (fun x => |x|))[i] < t →
      ((v.zipWith (fun x y => x * y) m1).map (fun x => |x|))[i] = 0 := by
    intro i hia hib hlt
    have hi : i < min v.length m0.length := by omega
    rw [hgetb i hi, hgetm1 i hi]
    rw [hgeta i hi] at hlt ⊢
    simp [hlt]
  have hrel1 : ∀ i (hia : i < ((v.zipWith (fun x y => x * y) m0).map (fun x => |x|)).length)
      (hib : i < ((v.zipWith (fun x y => x * y) m1).map (fun x => |x|)).length),
      ¬ ((v.zipWith (fun x y => x * y) m0).map (fun x => |x|))[i] < t →
      ((v.zipWith (fun x y => x * y) m0).map (fun x => |x|))[i]
        ≤ ((v.zipWith (fun x y => x * y) m1).map (fun x => |x|))[i] := by
    intro i hia hib hge
    have hi : i < min v.length m0.length := by omega
    rw [hgetb i hi, hgetm1 i hi]
    rw [hgeta i hi] at hge ⊢
    simp only [hge, if_false, mul_one]
    have hmem : m0[i] ∈ m0 := List.getElem_mem _
    rcases hbin _ hmem with hz | ho
    · rw [hz, mul_zero, abs_zero]
      exact abs_nonneg _
    · rw [ho, mul_one]
  have hpt := second_prune_pointwise ha (by omega) ht ht' hrel0 hrel1
  refine countP_mono_getElem (by omega) ?_
  intro i him2 him1 hq
  have hi : i < min v.length m0.length := by omega
  simp only [decide_eq_true_eq] at hq ⊢
  have hgetm2 : m2[i]
      = (if ((v.zipWith (fun x y => x * y) m1).map (fun x => |x|))[i] < t'
        then (0 : ℚ) else 1) := by
    simp only [hm2]
    rw [List.getElem_map]
  rw [hgetm2] at hq
  by_cases hb : ((v.zipWith (fun x y => x * y) m1).map (fun x => |x|))[i] < t'
  · rw [if_pos hb] at hq
    exact absurd hq.symm one_ne_zero
  · have hna : ¬ ((v.zipWith (fun x y => x * y) m0).map (fun x => |x|))[i] < t := by
      intro hlt
      exact hb (hpt i (by omega) (by omega) hlt)
    rw [hgetm1 i hi, if_neg hna]

/-- One-counts of a constant mask row. -/
theorem countP_map_const (l : List ℚ) (c : ℚ) :
    (l.map (fun _ => c)).countP (fun x => decide (x = 1))
      = if c = 1 then l.length else 0 := by
  rw [List.countP_map]
  by_cases hc : c = 1
  · rw [if_pos hc]
    refine List.countP_eq_length.2 ?_
    intro a _
    simpa [Function.comp] using hc
  · rw [if_neg hc]
    rw [List.countP_eq_zero]
    intro a _
    simpa [Function.comp] using hc

/-- The trailing size seen by a second carry-mask pruning pass equals the one
seen by the first. -/
theorem headlen_hadamard_stable {w M0 M1 : List (List ℚ)} {perc : ℚ}
    (h1 : pruneWeight (hadamard w M0) perc = some M1) :
    ((hadamard w M1).head?.map List.length).getD 0
      = ((hadamard w M0).head?.map List.length).getD 0 := by
  cases w with
  | nil => rfl
  | cons r w' =>
    cases M0 with
    | nil =>
      have hM1 : M1 = [] := by
        have := mapM_option_eq_some.1 h1
        cases this
        rfl
      subst hM1
      rfl
    | cons s M0' =>
      have hV : hadamard (r :: w') (s :: M0')
          = (r.zipWith (fun x y => x * y) s) :: hadamard w' M0' := rfl
      rw [hV] at h1
      have hall := mapM_option_eq_some.1 h1
      cases hall with
      | @cons _ m _ M1' hrm htail =>
        have hmlen : m.length = (r.zipWith (fun x y => x * y) s).length :=
          pruneRowW_length hrm
        have hV2 : hadamard (r :: w') (m :: M1')
            = (r.zipWith (fun x y => x * y) m) :: hadamard w' M1' := rfl
        rw [hV, hV2]
        simp only [List.head?_cons, Option.map_some', Option.getD_some]
        rw [List.length_zipWith, List.length_zipWith]
        rw [List.length_zipWith] at hmlen
        omega

/-- Weight granularity: a second carry-mask pass never increases the
one-count of the mask. -/
theorem pruneWeight_ones_mono {w M0 M1 M2 : List (List ℚ)} {perc : ℚ}
    (hbin : ∀ r ∈ M0, ∀ x ∈ r, x = 0 ∨ x = 1)
    (h1 : pruneWeight (hadamard w M0) perc = some M1)
    (h2 : pruneWeight (hadamard w M1) perc = some M2) :
    M2.flatten.countP (fun x => decide (x = 1))
      ≤ M1.flatten.countP (fun x => decide (x = 1)) := by
  have hk := headlen_hadamard_stable h1
  unfold pruneWeight at h1 h2
  rw [hk] at h2
  have F1 := mapM_option_eq_some.1 h1
  have F2 := mapM_option_eq_some.1 h2
  have hlen1 : (hadamard w M0).length = M1.length := F1.length_eq
  have hlen2 : (hadamard w M1).length = M2.length := F2.length_eq
  have hlhad1 : (hadamard w M0).length = min w.length M0.length := by
    simp [hadamard]
  have hlhad2 : (hadamard w M1).length = min w.length M1.length := by
    simp [hadamard]
  have hlen21 : M2.length = M1.length := by omega
  refine countP_flatten_mono hlen21 ?_
  intro i hi2 hi1
  have hiV1 : i < (hadamard w M0).length := by omega
  have hiV2 : i < (hadamard w M1).length := by omega
  have hiw : i < w.length := by omega
  have hiM0 : i < M0.length := by omega
  have hr1 := F1.get hiV1 hi1
  have hr2 := F2.get hiV2 hi2
  simp only [List.get_eq_getElem] at hr1 hr2
  have hV1 : (hadamard w M0)[i]
      = (w[i]).zipWith (fun x y => x * y) (M0[i]) := List.getElem_zipWith
  have hV2 : (hadamard w M1)[i]
      = (w[i]).zipWith (fun x y => x * y) (M1[i]) := List.getElem_zipWith
  rw [hV1] at hr1
  rw [hV2] at hr2
  exact row_ones_mono (hbin _ (List.getElem_mem hiM0)) hr1 hr2

/-- Success of `pruneUnit`, unfolded. -/
theorem pruneUnit_eq_some {w msk : List (List ℚ)} {perc : ℚ} :
    pruneUnit w perc = some msk ↔
      ∃ t, (sortL (w.map sqNorm))[ratIdx perc w.length]? = some t ∧
        msk = w.map (fun row =>
          row.map (fun _ => if sqNorm row < t then (0 : ℚ) else 1)) := by
  unfold pruneUnit
  cases h : (sortL (w.map sqNorm))[ratIdx perc w.length]? with
  | none => simp
  | some t => simp [eq_comm]

/-- Unit granularity: a second carry-mask pass never increases the one-count
of the mask. -/
theorem pruneUnit_ones_mono {w M0 M1 M2 : List (List ℚ)} {perc : ℚ}
    (hbin : ∀ r ∈ M0, ∀ x ∈ r, x = 0 ∨ x = 1)
    (h1 : pruneUnit (hadamard w M0) perc = some M1)
    (h2 : pruneUnit (hadamard w M1) perc = some M2) :
    M2.flatten.countP (fun x => decide (x = 1))
      ≤ M1.flatten.countP (fun x => decide (x = 1)) := by
  obtain ⟨t, ht, hM1⟩ := pruneUnit_eq_some.1 h1
  obtain ⟨t', ht', hM2⟩ := pruneUnit_eq_some.1 h2
  have hl1 : (hadamard w M0).length = min w.length M0.length := by
    simp [hadamard]
  have hlM1 : M1.length = min w.length M0.length := by
    rw [hM1]
    simp [hl1]
  have hl2 : (hadamard w M1).length = min w.length M0.length := by
    simp [hadamard, hlM1]
  have hlM2 : M2.length = min w.length M0.length := by
    rw [hM2]
    simp [hl2]
  have hidx : ratIdx perc (hadamard w M1).length
      = ratIdx perc (hadamard w M0).length := by
    rw [hl2, hl1]
  rw [hidx] at ht'
  have hann : ∀ x ∈ (hadamard w M0).map sqNorm, 0 ≤ x := by
    intro x hx
    obtain ⟨row, _, rfl⟩ := List.mem_map.1 hx
    exact sqNorm_nonneg row
  have hlab : ((hadamard w M1).map sqNorm).length
      = ((hadamard w M0).map sqNorm).length := by
    simp [hl1, hl2]
  have hgetM1 : ∀ i (hi : i < min w.length M0.length),
      M1[i]
        = ((hadamard w M0)[i]).map
            (fun _ => if sqNorm ((hadamard w M0)[i]) < t then (0 : ℚ) else 1) := by
    intro i hi
    simp only [hM1]
    rw [List.getElem_map]
  have hgetM2 : ∀ i (hi : i < min w.length M0.length),
      M2[i]
        = ((hadamard w M1)[i]).map
            (fun _ => if sqNorm ((hadamard w M1)[i]) < t' then (0 : ℚ) else 1) := by
    intro i hi
    simp only [hM2]
    rw [List.getElem_map]
  have hrel0 : ∀ i (hia : i < ((hadamard w M0).map sqNorm).length)
      (hib : i < ((hadamard w M1).map sqNorm).length),
      ((hadamard w M0).map sqNorm)[i] < t → ((hadamard w M1).map sqNorm)[i] = 0 := by
    intro i hia hib hlt
    have hi : i < min w.length M0.length := by
      rw [List.length_map, hl1] at hia
      exact hia
    have hiw : i < w.length := by omega
    have hiM0 : i < M0.length := by omega
    rw [List.getElem_map] at hlt
    rw [List.getElem_map]
    have hV2i : (hadamard w M1)[i]
        = (w[i]).zipWith (fun x y => x * y) (M1[i]) := List.getElem_zipWith
    rw [hV2i]
    have hM1i : M1[i]
        = ((hadamard w M0)[i]).map (fun _ => (0 : ℚ)) := by
      rw [hgetM1 i hi]
      refine List.map_congr_left ?_
      intro x _
      rw [if_pos hlt]
    rw [hM1i]
    exact sqNorm_zip_zero _ _
  have hrel1 : ∀ i (hia : i < ((hadamard w M0).map sqNorm).length)
      (hib : i < ((hadamard w M1).map sqNorm).length),
      ¬ ((hadamard w M0).map sqNorm)[i] < t →
      ((hadamard w M0).map sqNorm)[i] ≤ ((hadamard w M1).map sqNorm)[i] := by
    intro i hia hib hge
    have hi : i < min w.length M0.length := by
      rw [List.length_map, hl1] at hia
      exact hia
    have hiw : i < w.length := by omega
    have hiM0 : i < M0.length := by omega
    rw [List.getElem_map] at hge
    rw [List.getElem_map, List.getElem_map]
    have hV2i : (hadamard w M1)[i]
        = (w[i]).zipWith (fun x y => x * y) (M1[i]) := List.getElem_zipWith
    rw [hV2i]
    have hM1i : M1[i]
        = ((hadamard w M0)[i]).map (fun _ => (1 : ℚ)) := by
      rw [hgetM1 i hi]
      refine List.map_congr_left ?_
      intro x _
      rw [if_neg hge]
    rw [hM1i]
    have hV1i : (hadamard w M0)[i]
        = (w[i]).zipWith (fun x y => x * y) (M0[i]) := List.getElem_zipWith
    rw [hV1i]
    exact sqNorm_remask_ge _ _ (hbin _ (List.getElem_mem hiM0))
  have hpt := second_prune_pointwise hann hlab ht ht' hrel0 hrel1
  have hlen21 : M2.length = M1.length := by omega
  refine countP_flatten_mono hlen21 ?_
  intro i hi2 hi1
  have hi : i < min w.length M0.length := by omega
  have hiw : i < w.length := by omega
  have hiM0 : i < M0.length := by omega
  have hV2i : (hadamard w M1)[i]
      = (w[i]).zipWith (fun x y => x * y) (M1[i]) := List.getElem_zipWith
  have hV1i : (hadamard w M0)[i]
      = (w[i]).zipWith (fun x y => x * y) (M0[i]) := List.getElem_zipWith
  by_cases hb : sqNorm ((hadamard w M1)[i]) < t'
  · have hM2i : M2[i]
        = ((hadamard w M1)[i]).map (fun _ => (0 : ℚ)) := by
      rw [hgetM2 i hi]
      refine List.map_congr_left ?_
      intro x _
      rw [if_pos hb]
    rw [hM2i, countP_map_const]
    simp
  · have hM2i : M2[i]
        = ((hadamard w M1)[i]).map (fun _ => (1 : ℚ)) := by
      rw [hgetM2 i hi]
      refine List.map_congr_left ?_
      intro x _
      rw [if_neg hb]
    have hna : ¬ sqNorm ((hadamard w M0)[i]) < t := by
      intro hlt
      refine hb ?_
      have hia : i < ((hadamard w M0).map sqNorm).length := by
        rw [List.length_map, hl1]
        omega
      have hib : i < ((hadamard w M1).map sqNorm).length := by
        rw [List.length_map, hl2]
        omega
      have := hpt i hia hib (by rw [List.getElem_map]; exact hlt)
      rw [List.getElem_map] at this
      exact this
    have hM1i : M1[i]
        = ((hadamard w M0)[i]).map (fun _ => (1 : ℚ)) := by
      rw [hgetM1 i hi]
      refine List.map_congr_left ?_
      intro x _
      rw [if_neg hna]
    rw [hM2i, hM1i, countP_map_const, countP_map_const]
    have hlV2 : ((hadamard w M1)[i]).length
        = ((hadamard w M0)[i]).length := by
      rw [hV2i, hV1i]
      have hlM1i : (M1[i]).length
          = ((hadamard w M0)[i]).length := by
        rw [hgetM1 i hi]
        simp
      rw [List.length_zipWith, List.length_zipWith, hlM1i, hV1i, List.length_zipWith]
      omega
    rw [hlV2]

/-- Either granularity: a second carry-mask `prune` pass never increases the
one-count. -/
theorem prune_ones_mono {w M0 M1 M2 : List (List ℚ)} {pc : ℚ} {ty : String}
    (hbin : ∀ r ∈ M0, ∀ x ∈ r, x = 0 ∨ x = 1)
    (h1 : prune (hadamard w M0) pc ty = .ok M1)
    (h2 : prune (hadamard w M1) pc ty = .ok M2) :
    M2.flatten.countP (fun x => decide (x = 1))
      ≤ M1.flatten.countP (fun x => decide (x = 1)) := by
  by_cases hw : ty = "weight"
  · subst hw
    unfold prune at h1 h2
    rw [if_pos rfl] at h1 h2
    cases hp1 : pruneWeight (hadamard w M0) pc with
    | none => rw [hp1] at h1; exact absurd h1 (by simp)
    | some m1 =>
      rw [hp1] at h1
      simp only [Except.ok.injEq] at h1
      subst h1
      cases hp2 : pruneWeight (hadamard w m1) pc with
      | none => rw [hp2] at h2; exact absurd h2 (by simp)
      | some m2 =>
        rw [hp2] at h2
        simp only [Except.ok.injEq] at h2
        subst h2
        exact pruneWeight_ones_mono hbin hp1 hp2
  · by_cases hu : ty = "unit"
    · subst hu
      unfold prune at h1 h2
      rw [if_neg (by decide), if_pos rfl] at h1 h2
      cases hp1 : pruneUnit (hadamard w M0) pc with
      | none => rw [hp1] at h1; exact absurd h1 (by simp)
      | some m1 =>
        rw [hp1] at h1
        simp only [Except.ok.injEq] at h1
        subst h1
        cases hp2 : pruneUnit (hadamard w m1) pc with
        | none => rw [hp2] at h2; exact absurd h2 (by simp)
        | some m2 =>
          rw [hp2] at h2
          simp only [Except.ok.injEq] at h2
          subst h2
          exact pruneUnit_ones_mono hbin hp1 hp2
    · unfold prune at h1
      rw [if_neg hw, if_neg hu] at h1
      exact absurd h1 (by simp)

/-- One layer of `local_prune` with `carry_mask`: the second invocation never
increases the number of ones in the layer's mask. -/
theorem pruneLayer_ones_mono {cfg : Args} {pc : ℚ} (hcarry : cfg.carry_mask = true)
    {L L' L'' : Layer}
    (hbin : ∀ r ∈ L.mask, ∀ x ∈ r, x = 0 ∨ x = 1)
    (h1 : pruneLayer cfg pc L = .ok L') (h2 : pruneLayer cfg pc L' = .ok L'') :
    maskOnes L'' ≤ maskOnes L' := by
  unfold pruneLayer at h1
  by_cases hg1 : mask_sparsity L ≤ cfg.final_sparsity
  · rw [if_pos hg1] at h1
    simp only [hcarry, if_true] at h1
    cases hp1 : prune (hadamard L.weight L.mask) pc cfg.prune_type with
    | error e => rw [hp1] at h1; exact absurd h1 (by simp [Except.map])
    | ok M1 =>
      rw [hp1] at h1
      simp only [Except.map, Except.ok.injEq] at h1
      subst h1
      unfold pruneLayer at h2
      by_cases hg2 : mask_sparsity { L with mask := M1 } ≤ cfg.final_sparsity
      · rw [if_pos hg2] at h2
        simp only [hcarry, if_true] at h2
        cases hp2 : prune (hadamard L.weight M1) pc cfg.prune_type with
        | error e => rw [hp2] at h2; exact absurd h2 (by simp [Except.map])
        | ok M2 =>
          rw [hp2] at h2
          simp only [Except.map, Except.ok.injEq] at h2
          subst h2
          exact prune_ones_mono hbin hp1 hp2
      · rw [if_neg hg2] at h2
        cases h2
        exact le_refl _
  · rw [if_neg hg1] at h1
    cases h1
    unfold pruneLayer at h2
    rw [if_neg hg1] at h2
    cases h2
    exact le_refl _

/-- Full `local_prune` with `carry_mask`: re-invoking with the same fraction
never increases any layer's one-count (pairing layers positionally). -/
theorem local_prune_ones_mono {cfg : Args} {pc : ℚ} (hcarry : cfg.carry_mask = true) :
    ∀ {m m₁ m₂ : Model},
      (∀ L ∈ m, ∀ r ∈ L.mask, ∀ x ∈ r, x = 0 ∨ x = 1) →
      local_prune cfg m pc = .ok m₁ →
      local_prune cfg m₁ pc = .ok m₂ →
      List.Forall₂ (fun B A => maskOnes B ≤ maskOnes A) m₂ m₁ := by
  intro m
  induction m with
  | nil =>
    intro m₁ m₂ _ h1 h2
    cases h1
    cases h2
    exact .nil
  | cons L rest ih =>
    intro m₁ m₂ hbin h1 h2
    unfold local_prune at h1
    cases hL1 : pruneLayer cfg pc L with
    | error e => rw [hL1] at h1; exact absurd h1 (by simp)
    | ok L' =>
      rw [hL1] at h1
      cases hrest1 : local_prune cfg rest pc with
      | error p => rw [hrest1] at h1; exact absurd h1 (by simp)
      | ok rest₁ =>
        rw [hrest1] at h1
        cases h1
        unfold local_prune at h2
        cases hL2 : pruneLayer cfg pc L' with
        | error e => rw [hL2] at h2; exact absurd h2 (by simp)
        | ok L'' =>
          rw [hL2] at h2
          cases hrest2 : local_prune cfg rest₁ pc with
          | error p => rw [hrest2] at h2; exact absurd h2 (by simp)
          | ok rest₂ =>
            rw [hrest2] at h2
            cases h2
            refine List.Forall₂.cons ?_ ?_
            · exact pruneLayer_ones_mono hcarry
                (hbin L (List.mem_cons_self L rest)) hL1 hL2
            · exact ih (fun K hK => hbin K (List.mem_cons_of_mem L hK)) hrest1 hrest2

/-! ## Kept-weight count of `global_prune` -/

/-- One-count of a freshly assigned global mask for one layer. -/
theorem maskOnes_global_update (L : Layer) (t : ℚ) :
    maskOnes { L with mask := L.weight.map (fun row =>
        row.map (fun x => if |x| > t then (1 : ℚ) else 0)) }
      = L.weight.flatten.countP (fun x => decide (|x| > t)) := by
  unfold maskOnes
  have hflat : (L.weight.map (fun row =>
      row.map (fun x => if |x| > t then (1 : ℚ) else 0))).flatten
      = L.weight.flatten.map (fun x => if |x| > t then (1 : ℚ) else 0) :=
    (List.map_flatten ..).symm
  rw [hflat, List.countP_map]
  refine List.countP_congr ?_
  intro x _
  simp only [Function.comp_apply]
  by_cases hx : |x| > t <;> simp [hx]

/-- Total one-count after `global_prune` assigns masks at threshold `t`. -/
theorem totalOnes_global (m : Model) (t : ℚ) :
    totalOnes (m.map fun L =>
      { L with mask := L.weight.map (fun row =>
          row.map (fun x => if |x| > t then (1 : ℚ) else 0)) })
      = (scoresOf m).countP (fun x => decide (|x| > t)) := by
  unfold totalOnes scoresOf
  rw [List.map_map, List.countP_flatten, List.map_map, List.map_map]
  refine congrArg List.sum ?_
  refine List.map_congr_left ?_
  intro L _
  exact maskOnes_global_update L t

/-- The kept-weight count of `global_prune`: with pairwise-distinct absolute
values and an in-range fraction, the strict greater-than keep rule keeps
exactly `N - idx - 1` weights, one fewer than `N - idx`. -/
theorem global_prune_kept_count {m : Model} {f : ℚ}
    (hnodup : ((scoresOf m).map (fun x => |x|)).Nodup)
    (hf0 : 0 ≤ f) (hf1 : f < 1) (hN : 0 < totalCount m) :
    Except.map totalOnes (global_prune m f)
      = .ok (totalCount m - ratIdx f (totalCount m) - 1) := by
  have hidx : ratIdx f (totalCount m) < totalCount m := ratIdx_lt hf0 hf1 hN
  have hlen : ratIdx f (totalCount m)
      < (sortL ((scoresOf m).map (fun x => |x|))).length := by
    rw [sortL_length, List.length_map]
    exact hidx
  unfold totalCount at hidx hlen ⊢
  unfold global_prune
  rw [List.getElem?_eq_getElem hlen]
  show Except.map totalOnes (Except.ok _) = _
  rw [Except.map]
  refine congrArg Except.ok ?_
  rw [totalOnes_global]
  have hcount : (scoresOf m).countP
      (fun x => decide (|x| > (sortL ((scoresOf m).map (fun x => |x|)))[ratIdx f (scoresOf m).length]))
      = ((scoresOf m).map (fun x => |x|)).countP
        (fun y => decide ((sortL ((scoresOf m).map (fun x => |x|)))[ratIdx f (scoresOf m).length] < y)) := by
    rw [List.countP_map]
    refine List.countP_congr ?_
    intro x _
    simp [Function.comp, gt_iff_lt]
  rw [hcount, countP_gt_rank_of_nodup hnodup hlen, List.length_map]

/-! ## Fraction zero: the strict comparison prunes nothing -/

/-- At rank index `0` the threshold is the row minimum, and no magnitude is
strictly below it: the row mask is all ones. -/
theorem pruneRowW_zero {row : List ℚ} (hk : row ≠ []) :
    pruneRowW 0 row = some (row.map (fun _ => (1 : ℚ))) := by
  unfold pruneRowW
  have hlen : 0 < (sortL (row.map (fun x => |x|))).length := by
    rw [sortL_length, List.length_map]
    exact List.length_pos.2 hk
  rw [List.getElem?_eq_getElem hlen]
  show some _ = some _
  refine congrArg some ?_
  rw [List.map_map]
  refine List.map_congr_left ?_
  intro x _
  simp only [Function.comp_apply]
  rw [if_neg (not_lt.2 (rank_zero_le hlen (List.mem_map_of_mem _ ‹x ∈ row›)))]

/-- `prune(w, 0, 'weight')` returns the all-ones mask (nothing is pruned). -/
theorem pruneWeight_zero {w : List (List ℚ)} (hr : ∀ r ∈ w, r ≠ []) :
    pruneWeight w 0 = some (w.map (fun row => row.map (fun _ => (1 : ℚ)))) := by
  unfold pruneWeight
  rw [ratIdx_zero]
  refine mapM_option_eq_some.2 ?_
  rw [List.forall₂_map_right_iff]
  refine List.forall₂_same.2 ?_
  intro r hrw
  exact pruneRowW_zero (hr r hrw)

/-- `prune(w, 0, 'unit')` returns the all-ones mask (nothing is pruned). -/
theorem pruneUnit_zero {w : List (List ℚ)} (hw : w ≠ []) :
    pruneUnit w 0 = some (w.map (fun row => row.map (fun _ => (1 : ℚ)))) := by
  unfold pruneUnit
  rw [ratIdx_zero]
  have hlen : 0 < (sortL (w.map sqNorm)).length := by
    rw [sortL_length, List.length_map]
    exact List.length_pos.2 hw
  rw [List.getElem?_eq_getElem hlen]
  show some _ = some _
  refine congrArg some ?_
  refine List.map_congr_left ?_
  intro row hrow
  have hnl : ¬ sqNorm row < (sortL (w.map sqNorm))[0] :=
    not_lt.2 (rank_zero_le hlen (List.mem_map_of_mem _ hrow))
  refine List.map_congr_left ?_
  intro x _
  rw [if_neg hnl]

/-! ## Fraction one: the rank index equals the array length -/

/-- `prune(w, 1, 'weight')` hits an out-of-range index on the first row. -/
theorem pruneWeight_one {w : List (List ℚ)} {k : ℕ} (hw : w ≠ [])
    (hrect : ∀ r ∈ w, r.length = k) :
    pruneWeight w 1 = none := by
  cases w with
  | nil => exact absurd rfl hw
  | cons r w' =>
    have hk : r.length = k := hrect r (List.mem_cons_self r w')
    cases hpw : pruneWeight (r :: w') 1 with
    | none => rfl
    | some msk =>
      exfalso
      unfold pruneWeight at hpw
      have hall := mapM_option_eq_some.1 hpw
      cases hall with
      | cons hrm _ =>
        rw [pruneRowW] at hrm
        have hidx : ratIdx 1 (((r :: w' : List (List ℚ)).head?.map List.length).getD 0)
            = r.length := by
          simp [ratIdx_one]
        rw [hidx] at hrm
        rw [List.getElem?_eq_none (by rw [sortL_length, List.length_map])] at hrm
        exact absurd hrm (by simp)

/-- `prune(w, 1, 'unit')` hits an out-of-range index on the sorted norms. -/
theorem pruneUnit_one (w : List (List ℚ)) : pruneUnit w 1 = none := by
  unfold pruneUnit
  rw [ratIdx_one]
  rw [List.getElem?_eq_none (by rw [sortL_length, List.length_map])]

/-! ## Bounds for the cyclic sparsity ramps -/

/-- Both cyclic ramps stay inside `[0, final_sparsity]` at every step. -/
theorem compute_sparsity_cyclic_bounds {a : Args} (step : ℕ)
    (hty : a.ramp_type = "half_cycle" ∨ a.ramp_type = "full_cycle")
    (hfs : 0 ≤ a.final_sparsity) (hcyc : 0 < a.ramp_cycle_step) :
    0 ≤ compute_sparsity a step ∧
      compute_sparsity a step ≤ (a.final_sparsity : ℝ) := by
  have hfsR : (0 : ℝ) ≤ (a.final_sparsity : ℝ) := by exact_mod_cast hfs
  have hLR : (0 : ℝ) < (a.ramp_cycle_step : ℝ) := by exact_mod_cast hcyc
  unfold compute_sparsity
  rcases hty with hty | hty
  · rw [hty]
    rw [if_neg (by decide), if_pos rfl]
    have hrL : ((step % a.ramp_cycle_step : ℕ) : ℝ) < (a.ramp_cycle_step : ℝ) := by
      exact_mod_cast Nat.mod_lt step hcyc
    have hr0 : (0 : ℝ) ≤ ((step % a.ramp_cycle_step : ℕ) : ℝ) := by positivity
    have harg0 : 0 ≤ Real.pi / 2 * ((step % a.ramp_cycle_step : ℕ) : ℝ)
        / (a.ramp_cycle_step : ℝ) := by
      have hpi := Real.pi_pos
      positivity
    have hargpi : Real.pi / 2 * ((step % a.ramp_cycle_step : ℕ) : ℝ)
        / (a.ramp_cycle_step : ℝ) ≤ Real.pi := by
      have hratio : ((step % a.ramp_cycle_step : ℕ) : ℝ) / (a.ramp_cycle_step : ℝ) ≤ 1 :=
        (div_le_one hLR).2 (le_of_lt hrL)
      have heq : Real.pi / 2 * ((step % a.ramp_cycle_step : ℕ) : ℝ)
          / (a.ramp_cycle_step : ℝ)
          = Real.pi / 2 * (((step % a.ramp_cycle_step : ℕ) : ℝ)
            / (a.ramp_cycle_step : ℝ)) := by
        ring
      rw [heq]
      nlinarith [Real.pi_pos]
    constructor
    · exact mul_nonneg hfsR (Real.sin_nonneg_of_nonneg_of_le_pi harg0 hargpi)
    · calc (a.final_sparsity : ℝ) * Real.sin (Real.pi / 2
            * ((step % a.ramp_cycle_step : ℕ) : ℝ) / (a.ramp_cycle_step : ℝ))
          ≤ (a.final_sparsity : ℝ) * 1 :=
            mul_le_mul_of_nonneg_left (Real.sin_le_one _) hfsR
        _ = (a.final_sparsity : ℝ) := mul_one _
  · rw [hty]
    rw [if_neg (by decide), if_neg (by decide), if_pos rfl]
    constructor
    · exact mul_nonneg hfsR (abs_nonneg _)
    · calc (a.final_sparsity : ℝ)
            * |Real.sin (Real.pi / 2 * ((step : ℝ) / (a.ramp_cycle_step : ℝ)))|
          ≤ (a.final_sparsity : ℝ) * 1 :=
            mul_le_mul_of_nonneg_left (Real.abs_sin_le_one _) hfsR
        _ = (a.final_sparsity : ℝ) := mul_one _

/-! ## PGD: clamping bounds -/

/-- The delta clamp confines the perturbation to the eps-ball. -/
theorem clampQ_abs_le {eps y : ℚ} (heps : 0 ≤ eps) : |clampQ (-eps) eps y| ≤ eps := by
  rw [abs_le]
  unfold clampQ
  constructor
  · refine le_min ?_ (by linarith)
    exact le_max_right y (-eps)
  · exact min_le_right _ _

/-- Clamping a disturbed pixel back to `[0, 1]` keeps it in range and within
the original disturbance of the source pixel. -/
theorem clamp01_bounds {x d eps : ℚ} (hx0 : 0 ≤ x) (hx1 : x ≤ 1) (hd : |d| ≤ eps) :
    (0 ≤ clampQ 0 1 (x + d) ∧ clampQ 0 1 (x + d) ≤ 1) ∧
      |clampQ 0 1 (x + d) - x| ≤ eps := by
  rw [abs_le] at hd
  unfold clampQ
  rcases le_total (x + d) 0 with h0 | h0
  · rw [max_eq_right h0, min_eq_left (by norm_num : (0 : ℚ) ≤ 1)]
    refine ⟨⟨le_refl 0, by norm_num⟩, ?_⟩
    rw [abs_le]
    constructor <;> linarith
  · rw [max_eq_left h0]
    rcases le_total (x + d) 1 with h1 | h1
    · rw [min_eq_left h1]
      refine ⟨⟨h0, h1⟩, ?_⟩
      have heq : x + d - x = d := by ring
      rw [heq, abs_le]
      exact hd
    · rw [min_eq_right h1]
      refine ⟨⟨by norm_num, le_refl 1⟩, ?_⟩
      rw [abs_le]
      constructor <;> linarith

/-- Elementwise guarantee of one PGD iteration: whatever the incoming
adversarial batch, the outgoing pixel is in `[0, 1]` and within `eps` of the
original. -/
theorem pgd_step_bounds {gradOracle : List ℚ → List ℚ} {images : List ℚ}
    {eps alpha : ℚ} (heps : 0 ≤ eps)
    (himg : ∀ x ∈ images, 0 ≤ x ∧ x ≤ 1) (adv : List ℚ) :
    ∀ i (hi : i < (pgd_step gradOracle images eps alpha adv).length)
      (him : i < images.length),
      (0 ≤ (pgd_step gradOracle images eps alpha adv)[i] ∧
        (pgd_step gradOracle images eps alpha adv)[i] ≤ 1) ∧
      |(pgd_step gradOracle images eps alpha adv)[i] - images[i]| ≤ eps := by
  intro i hi him
  unfold pgd_step at hi ⊢
  rw [List.getElem_zipWith]
  have hdel : i < ((adv.zipWith (fun a g => a + alpha * torchSign g) (gradOracle adv)).zipWith
      (fun a x => clampQ (-eps) eps (a - x)) images).length := by
    rw [List.length_zipWith] at hi
    omega
  rw [List.getElem_zipWith (h := hdel)]
  exact clamp01_bounds (himg _ (List.getElem_mem him)).1 (himg _ (List.getElem_mem him)).2
    (clampQ_abs_le heps)

/-- One PGD iteration emits a batch of the source image's length. -/
theorem pgd_step_length {gradOracle : List ℚ → List ℚ} {images adv : List ℚ}
    {eps alpha : ℚ} (hgrad : ∀ l, (gradOracle l).length = l.length)
    (hadv : adv.length = images.length) :
    (pgd_step gradOracle images eps alpha adv).length = images.length := by
  unfold pgd_step
  rw [List.length_zipWith, List.length_zipWith, List.length_zipWith, hgrad, hadv]
  omega

/-- `PGD.forward` returns a batch of the input's shape whose every pixel lies
in `[0, 1]` within `eps` of the corresponding input pixel, for either setting
of `random_start`. -/
theorem PGD_forward_bounds {a : PGDArgs} {gradOracle : List ℚ → List ℚ}
    {rand images : List ℚ} {eps : ℚ}
    (heps : 0 ≤ eps) (himg : ∀ x ∈ images, 0 ≤ x ∧ x ≤ 1)
    (hrand : ∀ x ∈ rand, |x| ≤ eps) (hrandlen : rand.length = images.length)
    (hgrad : ∀ l, (gradOracle l).length = l.length) :
    (PGD.forward a gradOracle rand images eps).length = images.length ∧
      ∀ i (hi : i < (PGD.forward a gradOracle rand images eps).length)
        (him : i < images.length),
        (0 ≤ (PGD.forward a gradOracle rand images eps)[i] ∧
          (PGD.forward a gradOracle rand images eps)[i] ≤ 1) ∧
        |(PGD.forward a gradOracle rand images eps)[i] - images[i]| ≤ eps := by
  have hadv1len : (if a.random_start
      then (images.zipWith (fun x r => clampQ 0 1 (x + r)) rand)
      else images).length = images.length := by
    cases hr : a.random_start with
    | true =>
      rw [if_pos rfl, List.length_zipWith, hrandlen]
      omega
    | false => rw [if_neg (by simp)]
  have hlen : ∀ n : ℕ, ((pgd_step gradOracle images eps a.alpha)^[n]
      (if a.random_start
        then (images.zipWith (fun x r => clampQ 0 1 (x + r)) rand)
        else images)).length = images.length := by
    intro n
    induction n with
    | zero => simpa using hadv1len
    | succ n ih =>
      rw [Function.iterate_succ_apply']
      exact pgd_step_length hgrad ih
  constructor
  · exact hlen a.steps
  · intro i
    unfold PGD.forward
    cases hn : a.steps with
    | zero =>
      simp only [Function.iterate_zero_apply]
      cases hr : a.random_start with
      | true =>
        rw [if_pos rfl]
        intro hi him
        rw [List.getElem_zipWith]
        have hirand : i < rand.length := by
          rw [List.length_zipWith] at hi
          omega
        exact clamp01_bounds (himg _ (List.getElem_mem him)).1
          (himg _ (List.getElem_mem him)).2 (hrand _ (List.getElem_mem hirand))
      | false =>
        rw [if_neg (by simp)]
        intro hi him
        refine ⟨himg _ (List.getElem_mem him), ?_⟩
        simpa using heps
    | succ n =>
      simp only [Function.iterate_succ_apply']
      intro hi him
      exact pgd_step_bounds heps himg _ i hi him

/-! ## Claim theorems

Concrete inputs used by witnesses and counterexamples. -/

/-- A one-layer model with weights `[[1,2,3,4]]` and a fresh all-ones mask. -/
def mC1 : Model := [⟨[[1, 2, 3, 4]], [[1, 1, 1, 1]]⟩]

/-- Configuration: local weight pruning with `carry_mask`, final sparsity
`1/4`, firing at step `0`. -/
def cfgC5 : Args :=
  { initial_sparsity := 0, final_sparsity := 1/4, start_step := 0, end_step := 1,
    steps := 10, ramp_type := "linear", ramp_cycle_step := 1, prune_freq := 1,
    global_prune := false, prune_type := "weight", carry_mask := true,
    ramping := false }

/-- The C5 counterexample model: weight `[[7,0,5,6]]`, mask `[[0,1,1,1]]`. -/
def mC5 : Model := [⟨[[7, 0, 5, 6]], [[0, 1, 1, 1]]⟩]

/-- Like `cfgC5` but with `carry_mask` disabled and final sparsity `1/2`. -/
def cfgC5w : Args :=
  { initial_sparsity := 0, final_sparsity := 1/2, start_step := 0, end_step := 1,
    steps := 10, ramp_type := "linear", ramp_cycle_step := 1, prune_freq := 1,
    global_prune := false, prune_type := "weight", carry_mask := false,
    ramping := false }

/-- A fresh one-layer model for the C5 and C6 witnesses. -/
def mC5w : Model := [⟨[[1, 2, 3, 4]], [[1, 1, 1, 1]]⟩]

/-- `cfgC5w` with `carry_mask` enabled, for the C6 witness. -/
def cfgC6 : Args :=
  { initial_sparsity := 0, final_sparsity := 1/2, start_step := 0, end_step := 1,
    steps := 10, ramp_type := "linear", ramp_cycle_step := 1, prune_freq := 1,
    global_prune := false, prune_type := "weight", carry_mask := true,
    ramping := false }

/-- Ramping configuration for the C4 witness. -/
def cfgC4 : Args :=
  { initial_sparsity := 0, final_sparsity := 1/2, start_step := 1/10, end_step := 1/2,
    steps := 10, ramp_type := "linear", ramp_cycle_step := 1, prune_freq := 2,
    global_prune := false, prune_type := "weight", carry_mask := false,
    ramping := true }

/-- Configuration with an unsupported granularity string, for C8. -/
def cfgC8 : Args :=
  { initial_sparsity := 0, final_sparsity := 1/2, start_step := 0, end_step := 1,
    steps := 10, ramp_type := "linear", ramp_cycle_step := 1, prune_freq := 1,
    global_prune := false, prune_type := "filter", carry_mask := false,
    ramping := false }

/-- C1, counterexample.  The claim predicts a kept-weight count of
`total_count - floor(f * total_count)`; on the four weights `1,2,3,4` with
`f = 1/2` that is `4 - 2 = 2`, but `global_prune`'s strict `abs(w) >
threshold` keep rule (threshold = the rank-2 value `3`) keeps only the single
weight `4`. -/
theorem C1_counterexample :
    Except.map totalOnes (global_prune mC1 (1/2)) = .ok 1 ∧
      totalCount mC1 - ratIdx (1/2) (totalCount mC1) = 2 ∧ (1 : ℕ) ≠ 2 := by
  decide

/-- C1 (amended): for pairwise-distinct absolute values and `0 ≤ f < 1` on a
nonempty weight population, `global_prune` leaves a total kept-weight count of
`total_count - floor(f * total_count) - 1`: the strict greater-than keep rule
also discards the weight sitting exactly at the threshold. -/
theorem C1_global_kept_count {m : Model} {f : ℚ}
    (hnodup : ((scoresOf m).map (fun x => |x|)).Nodup)
    (hf0 : 0 ≤ f) (hf1 : f < 1) (hN : 0 < totalCount m) :
    Except.map totalOnes (global_prune m f)
      = .ok (totalCount m - ratIdx f (totalCount m) - 1) :=
  global_prune_kept_count hnodup hf0 hf1 hN

/-- C1, witness: the amended count on the concrete model `mC1` at `f = 1/2`. -/
theorem C1_witness :
    ((scoresOf mC1).map (fun x => |x|)).Nodup ∧
      Except.map totalOnes (global_prune mC1 (1/2))
        = .ok (totalCount mC1 - ratIdx (1/2) (totalCount mC1) - 1) :=
  ⟨by decide, C1_global_kept_count (by decide) (by decide) (by decide) (by decide)⟩

/-- C2, counterexample.  For the `(4, 3)` tensor `[[1,2,3],[4,5,6],[7,8,9],
[10,11,12]]` at `perc = 1/2` the claim predicts rank `idx = int(0.5*4) = 2`
and two zeros per original column; the code's rank index is
`int(0.5 * 3) = 1` (the transposed leading dimension is the trailing size 3),
the thresholds group the magnitudes of each original row, and the actual mask
zeroes exactly one entry per row — not the claimed mask. -/
theorem C2_counterexample :
    prune [[1, 2, 3], [4, 5, 6], [7, 8, 9], [10, 11, 12]] (1/2) "weight"
        = .ok [[0, 1, 1], [0, 1, 1], [0, 1, 1], [0, 1, 1]] ∧
      ([[0, 1, 1], [0, 1, 1], [0, 1, 1], [0, 1, 1]] : List (List ℚ))
        ≠ [[0, 0, 0], [0, 0, 0], [1, 1, 1], [1, 1, 1]] ∧
      ratIdx (1/2) 3 = 1 ∧ ratIdx (1/2) 3 ≠ 2 := by
  decide

/-- C2 (amended): for the concrete `(4, 3)` tensor, `prune(w, 0.5, 'weight')`
uses rank index `idx = int(0.5 * 3) = 1` (taken from the trailing size, not
the output count), thresholds each original row at its rank-1 magnitude, and
marks exactly the single smallest entry of each row with `0`. -/
theorem C2_weight_concrete :
    prune [[1, 2, 3], [4, 5, 6], [7, 8, 9], [10, 11, 12]] (1/2) "weight"
        = .ok [[0, 1, 1], [0, 1, 1], [0, 1, 1], [0, 1, 1]] ∧
      ratIdx (1/2) 3 = 1 := by
  decide

/-- C3, counterexample.  The claim says that at `f = 0` at least the single
minimum element (resp. unit) is pruned; on `[[1,2],[3,4]]` both granularities
return the all-ones mask — nothing at all is pruned, because nothing compares
strictly below the rank-0 minimum. -/
theorem C3_counterexample :
    prune [[1, 2], [3, 4]] 0 "weight" = .ok [[1, 1], [1, 1]] ∧
      prune [[1, 2], [3, 4]] 0 "unit" = .ok [[1, 1], [1, 1]] := by
  decide

/-- C3 (amended): for every nonempty weight tensor at `f = 0`, the rank index
is `0`, the threshold is the minimum magnitude (resp. minimum unit norm)
present, and the strict `<` comparison therefore prunes nothing: both
granularities return the all-ones mask. -/
theorem C3_zero_fraction_all_ones {w : List (List ℚ)}
    (hw : w ≠ []) (hr : ∀ r ∈ w, r ≠ []) :
    prune w 0 "weight" = .ok (w.map (fun row => row.map (fun _ => (1 : ℚ)))) ∧
      prune w 0 "unit" = .ok (w.map (fun row => row.map (fun _ => (1 : ℚ)))) := by
  constructor
  · unfold prune
    rw [if_pos rfl, pruneWeight_zero hr]
  · unfold prune
    rw [if_neg (by decide), if_pos rfl, pruneUnit_zero hw]

/-- C3, witness: the all-ones masks at `f = 0` on `[[1,2],[3,4]]`. -/
theorem C3_witness :
    prune [[1, 2], [3, 4]] 0 "weight"
        = .ok (([[1, 2], [3, 4]] : List (List ℚ)).map
            (fun row => row.map (fun _ => (1 : ℚ)))) ∧
      prune [[1, 2], [3, 4]] 0 "unit"
        = .ok (([[1, 2], [3, 4]] : List (List ℚ)).map
            (fun row => row.map (fun _ => (1 : ℚ)))) :=
  C3_zero_fraction_all_ones (by decide) (by decide)

/-- C4: `ramping_prune` leaves every layer's mask exactly unchanged at any
step outside the half-open window `[start_step, end_step)` or, inside it, at
any step with `step % prune_freq ≠ 0`; in particular nothing is mutated at
`step = end_step`, and between recompute steps masks persist as they are. -/
theorem C4_ramping_no_mutation (cfg : Args) (sched : ℕ → ℚ) (m : Model) :
    (∀ step : ℕ,
      (¬ (startStep cfg ≤ step ∧ step < endStep cfg) ∨ step % cfg.prune_freq ≠ 0) →
      ramping_prune cfg sched m step = .ok m) ∧
      ramping_prune cfg sched m (endStep cfg) = .ok m := by
  constructor
  · intro step h
    refine ramping_frame ?_
    intro ⟨hin, hend, hfreq⟩
    rcases h with h | h
    · exact h ⟨hin, hend⟩
    · exact h hfreq
  · refine ramping_frame ?_
    intro ⟨_, hend, _⟩
    exact absurd hend (lt_irrefl _)

/-- C4, witness: a concrete ramping configuration left untouched at an
out-of-window step, at an in-window off-frequency step, and at `end_step`. -/
theorem C4_witness :
    ramping_prune cfgC4 (fun _ => 0) mC5w 99 = .ok mC5w ∧
      ramping_prune cfgC4 (fun _ => 0) mC5w 3 = .ok mC5w ∧
      ramping_prune cfgC4 (fun _ => 0) mC5w (endStep cfgC4) = .ok mC5w :=
  ⟨(C4_ramping_no_mutation cfgC4 (fun _ => 0) mC5w).1 99 (by decide),
   (C4_ramping_no_mutation cfgC4 (fun _ => 0) mC5w).1 3 (by decide),
   (C4_ramping_no_mutation cfgC4 (fun _ => 0) mC5w).2⟩

/-- C5, counterexample.  With local pruning, `carry_mask` enabled and the
partially-zero starting mask `[[0,1,1,1]]` over weights `[[7,0,5,6]]`
(`final_sparsity = 1/4`, so the rank index is 1), the first firing computes
magnitudes `[0,0,5,6]`, whose rank-1 value is `0`; nothing compares strictly
below `0`, so the first call revives everything (mask `[[1,1,1,1]]`).  The
second call then prunes against magnitudes `[7,0,5,6]` with threshold `5` and
produces `[[1,0,1,1]]` — a different mask, refuting idempotence as claimed. -/
theorem C5_counterexample :
    startStep cfgC5 = 0 ∧
      single_shot_prune cfgC5 mC5 0 = .ok [⟨[[7, 0, 5, 6]], [[1, 1, 1, 1]]⟩] ∧
      single_shot_prune cfgC5 [⟨[[7, 0, 5, 6]], [[1, 1, 1, 1]]⟩] 0
        = .ok [⟨[[7, 0, 5, 6]], [[1, 0, 1, 1]]⟩] ∧
      ([⟨[[7, 0, 5, 6]], [[1, 0, 1, 1]]⟩] : Model)
        ≠ [⟨[[7, 0, 5, 6]], [[1, 1, 1, 1]]⟩] := by
  decide

/-- C5 (amended): `single_shot_prune` mutates masks only at
`step = start_step`; calling it twice at that step yields the same masks
after each call whenever `global_prune` is configured, or `carry_mask` is
disabled, or (with local carry-mask pruning) every layer's mask entering the
first call is all ones — the counterexample shows the all-ones proviso cannot
be dropped for the local carry-mask combination. -/
theorem C5_single_shot (cfg : Args) (m : Model) :
    (∀ step : ℕ, step ≠ startStep cfg → single_shot_prune cfg m step = .ok m) ∧
      (∀ m₁ : Model,
        (cfg.global_prune = false → cfg.carry_mask = true → ∀ L ∈ m, OnesMask L) →
        single_shot_prune cfg m (startStep cfg) = .ok m₁ →
        single_shot_prune cfg m₁ (startStep cfg) = .ok m₁) :=
  ⟨fun _ h => single_shot_frame h,
   fun _ hones h => single_shot_idem hones h⟩

/-- C5, witness: no-carry local pruning fires at step 0 on a fresh model and
the second call reproduces the same mask; any other step is a no-op. -/
theorem C5_witness :
    single_shot_prune cfgC5w mC5w 7 = .ok mC5w ∧
      single_shot_prune cfgC5w [⟨[[1, 2, 3, 4]], [[0, 0, 1, 1]]⟩]
          (startStep cfgC5w)
        = .ok [⟨[[1, 2, 3, 4]], [[0, 0, 1, 1]]⟩] :=
  ⟨(C5_single_shot cfgC5w mC5w).1 7 (by decide),
   (C5_single_shot cfgC5w mC5w).2 [⟨[[1, 2, 3, 4]], [[0, 0, 1, 1]]⟩]
     (by decide) (by decide)⟩

/-- C6: with `carry_mask` enabled, a second invocation of `local_prune` with
the same fraction never increases the number of ones in any layer's mask
relative to the masks left by the first invocation (layers paired
positionally; masks are binary, per the data model).  Proved for every
fraction, in particular every `f ∈ [0, 1)`. -/
theorem C6_local_prune_monotone (cfg : Args) (hcarry : cfg.carry_mask = true)
    (f : ℚ) (m m₁ m₂ : Model)
    (hbin : ∀ L ∈ m, ∀ r ∈ L.mask, ∀ x ∈ r, x = 0 ∨ x = 1)
    (h1 : local_prune cfg m f = .ok m₁) (h2 : local_prune cfg m₁ f = .ok m₂) :
    List.Forall₂ (fun B A => maskOnes B ≤ maskOnes A) m₂ m₁ :=
  local_prune_ones_mono hcarry hbin h1 h2

/-- C6, witness: a concrete carry-mask double invocation at `f = 1/2`; the
second pass reproduces the same mask, so the one-counts do not increase. -/
theorem C6_witness :
    List.Forall₂ (fun B A => maskOnes B ≤ maskOnes A)
      [(⟨[[1, 2, 3, 4]], [[0, 0, 1, 1]]⟩ : Layer)]
      [(⟨[[1, 2, 3, 4]], [[0, 0, 1, 1]]⟩ : Layer)] :=
  C6_local_prune_monotone cfgC6 (by decide) (1/2) mC5w
    [⟨[[1, 2, 3, 4]], [[0, 0, 1, 1]]⟩] [⟨[[1, 2, 3, 4]], [[0, 0, 1, 1]]⟩]
    (by decide) (by decide) (by decide)

/-- C7: for every step, both cyclic ramp types keep `compute_sparsity` within
the closed interval `[0, final_sparsity]` (given a nonnegative final sparsity
and a positive cycle length): `half_cycle` evaluates
`final * sin(π/2 * (step mod L) / L)` with argument in `[0, π/2)`, and
`full_cycle` evaluates `final * |sin(π/2 * step / L)|`. -/
theorem C7_cyclic_ramp_bounds {a : Args} (step : ℕ)
    (hty : a.ramp_type = "half_cycle" ∨ a.ramp_type = "full_cycle")
    (hfs : 0 ≤ a.final_sparsity) (hcyc : 0 < a.ramp_cycle_step) :
    0 ≤ compute_sparsity a step ∧
      compute_sparsity a step ≤ (a.final_sparsity : ℝ) :=
  compute_sparsity_cyclic_bounds step hty hfs hcyc

/-- Cyclic configuration for the C7 witness. -/
def cfgC7 : Args :=
  { initial_sparsity := 0, final_sparsity := 1, start_step := 0, end_step := 1,
    steps := 10, ramp_type := "half_cycle", ramp_cycle_step := 4, prune_freq := 1,
    global_prune := false, prune_type := "weight", carry_mask := false,
    ramping := true }

/-- C7, witness: the half-cycle ramp at step 3 with final sparsity 1 and
cycle length 4 stays inside `[0, 1]`. -/
theorem C7_witness :
    0 ≤ compute_sparsity cfgC7 3 ∧
      compute_sparsity cfgC7 3 ≤ (cfgC7.final_sparsity : ℝ) :=
  C7_cyclic_ramp_bounds 3 (Or.inl rfl) (by decide) (by decide)

/-- C8: for any granularity outside `{'weight', 'unit'}`, `prune` fails with
the unsupported-type error before computing or assigning any mask; inside
`local_prune` the exception aborts the pass with every mask exactly as it
was — the failing layer untouched and nothing rolled back — and propagates to
the caller (when every layer is guard-skipped no layer ever calls `prune`, and
the pass returns the unchanged model). -/
theorem C8_unsupported_type (cfg : Args) (pc : ℚ) (ty : String)
    (h1 : ty ≠ "weight") (h2 : ty ≠ "unit") (hcfg : cfg.prune_type = ty) :
    (∀ w : List (List ℚ), prune w pc ty = .error .unsupportedType) ∧
      (∀ m : Model, local_prune cfg m pc = .ok m ∨
        local_prune cfg m pc = .error (.unsupportedType, m)) := by
  constructor
  · intro w
    exact prune_unsupported h1 h2
  · intro m
    exact local_prune_unsupported (hcfg ▸ h1) (hcfg ▸ h2) m

/-- C8, witness: the granularity string `"filter"` makes `prune` fail with
the unsupported-type error, and a `local_prune` pass carries the model out
unchanged. -/
theorem C8_witness :
    prune [[1, 2]] (1/2) "filter" = .error .unsupportedType ∧
      (local_prune cfgC8 mC5w (1/2) = .ok mC5w ∨
        local_prune cfgC8 mC5w (1/2) = .error (.unsupportedType, mC5w)) :=
  ⟨(C8_unsupported_type cfgC8 (1/2) "filter" (by decide) (by decide) rfl).1 [[1, 2]],
   (C8_unsupported_type cfgC8 (1/2) "filter" (by decide) (by decide) rfl).2 mC5w⟩

/-- C9: at fraction `f = 1`, for every nonempty rectangular weight tensor,
both granularities compute a rank index equal to the length of the sorted
array being indexed (the trailing size `k` for `'weight'`, the unit count for
`'unit'`) and raise the out-of-range indexing error; no mask is returned. -/
theorem C9_fraction_one (w : List (List ℚ)) (k : ℕ)
    (hw : w ≠ []) (hrect : ∀ r ∈ w, r.length = k) :
    prune w 1 "weight" = .error .indexOutOfRange ∧
      prune w 1 "unit" = .error .indexOutOfRange ∧
      ratIdx 1 k = k ∧ ratIdx 1 w.length = w.length := by
  refine ⟨?_, ?_, ratIdx_one k, ratIdx_one _⟩
  · unfold prune
    rw [if_pos rfl, pruneWeight_one hw hrect]
  · unfold prune
    rw [if_neg (by decide), if_pos rfl, pruneUnit_one]

/-- C9, witness: the out-of-range failure at `f = 1` on `[[1,2],[3,4]]`. -/
theorem C9_witness :
    prune [[1, 2], [3, 4]] 1 "weight" = .error .indexOutOfRange ∧
      prune [[1, 2], [3, 4]] 1 "unit" = .error .indexOutOfRange ∧
      ratIdx 1 2 = 2 ∧ ratIdx 1 ([[1, 2], [3, 4]] : List (List ℚ)).length
        = ([[1, 2], [3, 4]] : List (List ℚ)).length :=
  C9_fraction_one [[1, 2], [3, 4]] 2 (by decide) (by decide)

/-- C10: `PGD.forward` returns a batch of the same shape (length) as the
input in which every pixel lies in `[0, 1]` and differs from the original
pixel by at most `eps`, for either `random_start` setting, given inputs in
`[0, 1]`, a nonnegative `eps`, random noise inside the eps-ball, and a
shape-preserving gradient oracle.  The model enters only through the gradient
oracle and is never written: the embedding is a pure function of its inputs,
matching the source, which only reads the model inside
`torch.autograd.grad`. -/
theorem C10_pgd_linf_bounds {a : PGDArgs} {gradOracle : List ℚ → List ℚ}
    {rand images : List ℚ} {eps : ℚ}
    (heps : 0 ≤ eps) (himg : ∀ x ∈ images, 0 ≤ x ∧ x ≤ 1)
    (hrand : ∀ x ∈ rand, |x| ≤ eps) (hrandlen : rand.length = images.length)
    (hgrad : ∀ l, (gradOracle l).length = l.length) :
    (PGD.forward a gradOracle rand images eps).length = images.length ∧
      ∀ i (hi : i < (PGD.forward a gradOracle rand images eps).length)
        (him : i < images.length),
        (0 ≤ (PGD.forward a gradOracle rand images eps)[i] ∧
          (PGD.forward a gradOracle rand images eps)[i] ≤ 1) ∧
        |(PGD.forward a gradOracle rand images eps)[i] - images[i]| ≤ eps :=
  PGD_forward_bounds heps himg hrand hrandlen hgrad

/-- C10, witness: two sign-gradient steps of size 1 on the single pixel `1/2`
with `eps = 1/4` stay inside `[0, 1]` and inside the eps-ball. -/
theorem C10_witness :
    (PGD.forward ⟨1, 2, false⟩ (fun l => l) [0] [1/2] (1/4)).length
        = ([1/2] : List ℚ).length ∧
      ∀ i (_hi : i < (PGD.forward ⟨1, 2, false⟩ (fun l => l) [0] [1/2] (1/4)).length)
        (him : i < ([1/2] : List ℚ).length),
        (0 ≤ (PGD.forward ⟨1, 2, false⟩ (fun l => l) [0] [1/2] (1/4))[i] ∧
          (PGD.forward ⟨1, 2, false⟩ (fun l => l) [0] [1/2] (1/4))[i] ≤ 1) ∧
        |(PGD.forward ⟨1, 2, false⟩ (fun l => l) [0] [1/2] (1/4))[i]
          - ([1/2] : List ℚ)[i]| ≤ 1/4 :=
  C10_pgd_linf_bounds (by decide) (by decide) (by decide) (by decide)
    (fun _ => rfl)

end Sparsity